import Mathlib

/-!
Shallow embedding of the rocketdocs repository documentation pipeline
(services/documentation_service.py, services/identifier_service.py,
services/chat_service.py, services/rag_service/text_chunker.py,
services/rag_service/embedding_service.py) together with proofs about the
behaviour of the embedded code.

Conventions used throughout:
* Python strings are modelled by Lean `String`; Python string indices and
  `len` are character based, exactly as `String.length` is.
* Python exceptions are modelled by `Except` values: a function that can
  raise returns `Except _ _` and a raised exception is `.error e`.
* Python loops without a structural termination argument are given an
  explicit fuel parameter (kept structural so that concrete runs reduce in
  the kernel); exhausting the fuel yields a distinguished artefact error
  that the actual program can never produce on the inputs the theorems
  talk about, and every theorem about a run is stated for results the
  fuelled interpreter actually returns.
* External collaborators (the LLM endpoints, the GitHub API, the Magika
  content classifier, the HuggingFace tokenizer and the Pinecone index)
  are not part of the repository source; they enter the model as explicit
  function parameters (oracles), and properties of the code are proved for
  every behaviour of those parameters unless stated otherwise.
-/

namespace RocketDocs

/-- Python whitespace characters recognised by `str.strip` / `str.isspace`
for the ASCII inputs handled here. -/
def pySpaceChars : List Char := [' ', '\t', '\n', '\r', '\x0b', '\x0c']

/-- Python `str.isspace`: true when the string is nonempty and every
character is whitespace. -/
def pyIsSpace (s : String) : Bool :=
  !s.data.isEmpty && s.data.all (fun c => pySpaceChars.contains c)

/-- Python slicing `s[a:b]` with non-negative clamped indices
(character based). -/
def pySlice (s : String) (a b : Nat) : String :=
  String.mk ((s.data.drop a).take (b - a))

/-- Python slicing `s[a:]` (character based). -/
def pySliceFrom (s : String) (a : Nat) : String :=
  String.mk (s.data.drop a)

/-- Helper for `pyFind`: first character index at which `sub` occurs in the
remaining text, counting from `i`. -/
def pyFindAux (sub : List Char) : List Char → Nat → Option Nat
  | [], i => if sub.isPrefixOf [] then some i else none
  | c :: rest, i =>
    if sub.isPrefixOf (c :: rest) then some i else pyFindAux sub rest (i + 1)

/-- Python `str.find`: index of the first occurrence of `sub` in `s`, or
`-1` when absent (here: `none`). -/
def pyFind (s sub : String) : Option Nat :=
  pyFindAux sub.data s.data 0

/-- Python `str.lstrip(chars)`: drop characters from the left while they
belong to `chars`. -/
def pyLStrip (s : String) (chars : List Char) : String :=
  String.mk (s.data.dropWhile (fun c => chars.contains c))

/-- Python `str.rstrip(chars)` analogue via reversal. -/
def pyRStrip (s : String) (chars : List Char) : String :=
  String.mk (((s.data.reverse).dropWhile (fun c => chars.contains c)).reverse)

/-- Python `str.strip(chars)`: strip the given characters from both ends. -/
def pyStripChars (s : String) (chars : List Char) : String :=
  pyRStrip (pyLStrip s chars) chars

/-- Python `str.strip()` with no argument: strip whitespace. -/
def pyStrip (s : String) : String :=
  pyStripChars s pySpaceChars

/-- Splitting a character list on each non-overlapping occurrence of the
literal separator `sep`, left to right (the semantics of Python
`re.split` on a pattern without metacharacters).  `fuel` only bounds the
recursion and is supplied as `xs.length + 1` by `pySplitOn`. -/
def splitOnAuxL (sep : List Char) : Nat → List Char → List (List Char)
  | 0, xs => [xs]
  | _ + 1, [] => [[]]
  | fuel + 1, c :: rest =>
    if sep ≠ [] ∧ sep.isPrefixOf (c :: rest) then
      [] :: splitOnAuxL sep fuel ((c :: rest).drop sep.length)
    else
      match splitOnAuxL sep fuel rest with
      | [] => [[c]]
      | p :: ps => (c :: p) :: ps

/-- Splitting a string on the literal separator `sep` (as Python
`re.split` with no capture group does for a literal pattern); the pieces
do not contain the separator. -/
def pySplitOn (text sep : String) : List String :=
  (splitOnAuxL sep.data (text.data.length + 1) text.data).map String.mk

end RocketDocs

namespace RocketDocs

/-! ## Text chunker (services/rag_service/text_chunker.py)

`TextChunker` holds the two size parameters of the Python class and the
token-length function `tl`, which models `len(self.tokenizer.encode(text))`
for the HuggingFace tokenizer loaded in `__init__`.  The tokenizer is an
external dependency, so `tl` is a parameter of the model. -/

/-- Decidable equality for `Except` results, used to evaluate concrete
runs of the embedded code. -/
instance {ε α : Type} [DecidableEq ε] [DecidableEq α] :
    DecidableEq (Except ε α) := fun a b =>
  match a, b with
  | .error e, .error e' =>
    if h : e = e' then .isTrue (by rw [h]) else .isFalse (by simp [h])
  | .error _, .ok _ => .isFalse (by simp)
  | .ok _, .error _ => .isFalse (by simp)
  | .ok x, .ok y =>
    if h : x = y then .isTrue (by rw [h]) else .isFalse (by simp [h])

structure TextChunker where
  chunk_size : Nat
  chunk_minimum : Nat
  tl : String → Nat

/-- Errors the chunking pipeline can produce.  `indexError` corresponds to
the Python `IndexError` raised by `processed_chunks[-1]` on an empty list;
`outOfFuel` is the artefact marker for exhausted recursion fuel. -/
inductive ChunkErr where
  | indexError
  | outOfFuel
  deriving DecidableEq, Repr

/-- `TextChunker._split_text_with_regex(text, separator, keep_separator)`
for a separator that is a literal string (the regex engine is external; a
literal separator is the case exercised by the properties below).  The
Python code builds `_splits = re.split(f"({separator})", text)`, glues
each captured separator onto the piece that follows it, prepends the
leading piece, and finally removes empty strings; the empty separator
falls into the `list(text)` branch. -/
def splitTextWithRegex (text separator : String) (keep_separator : Bool) :
    List String :=
  let splits :=
    if separator ≠ "" then
      if keep_separator then
        match pySplitOn text separator with
        | [] => []
        | p :: ps => p :: ps.map (fun q => separator ++ q)
      else
        pySplitOn text separator
    else
      text.data.map (fun c => String.mk [c])
  splits.filter (fun s => s ≠ "")

/-- `TextChunker.split_text_evenly(text, num_chunks)`:
`k, m = divmod(len(text), num_chunks)` followed by the slice
`text[i*k+min(i, m):(i+1)*k+min(i+1, m)]` for each `i`. -/
def split_text_evenly (text : String) (num_chunks : Nat) : List String :=
  let k := text.length / num_chunks
  let m := text.length % num_chunks
  (List.range num_chunks).map
    (fun i => pySlice text (i * k + min i m) ((i + 1) * k + min (i + 1) m))

/-- `TextChunker.verify_chunks(chunks)`. -/
def verify_chunks (C : TextChunker) (chunks : List String) : Bool :=
  chunks.all (fun c => C.tl c ≤ C.chunk_size)

/-- The `while not verify_chunks` loop inside `simple_chunk`, increasing
the estimated chunk count until every piece fits. -/
def simple_chunk_loop (C : TextChunker) (text : String) :
    Nat → Nat → Option (List String)
  | 0, _ => none
  | fuel + 1, n =>
    let chunks := split_text_evenly text n
    if verify_chunks C chunks then some chunks
    else simple_chunk_loop C text fuel (n + 1)

/-- `TextChunker.simple_chunk(text)`: start from
`math.ceil(token_count / chunk_size)` pieces and grow until all pieces fit.
A zero `chunk_size` would raise `ZeroDivisionError` in Python and is
mapped to `none`. -/
def simple_chunk (C : TextChunker) (text : String) : Option (List String) :=
  if C.chunk_size = 0 then none
  else
    let estimated := (C.tl text + C.chunk_size - 1) / C.chunk_size
    simple_chunk_loop C text (text.length + 2) estimated

/-- Argument of the combined `recursive_chunk` interpreter: either a text
to split (the body of `recursive_chunk`) or the remainder of the
`for chunk in chunks` loop over already-split pieces. -/
inductive RCArg where
  | text (t : String) (seps : List String)
  | pieces (ps : List String) (seps : List String)

/-- Combined interpreter for `TextChunker.recursive_chunk`.  The Python
method mutates the separator list with `seperators.pop()` (removing the
last element); the mutation is visible to the caller and to sibling
recursive calls, so the separator list is threaded through and returned.
The two mutually recursive bodies (the method itself and its `for` loop)
are merged into one function that is structurally recursive on `fuel`,
so that concrete runs reduce inside the kernel; `fuel` is an artefact
bounding the call depth only. -/
def recursiveChunkAux (C : TextChunker) : Nat → RCArg →
    Option (List String × List String)
  | 0, _ => none
  | fuel + 1, .text t seps =>
    if C.tl t ≤ C.chunk_size then some ([t], seps)
    else
      match seps.getLast? with
      | none => (simple_chunk C t).map (fun cs => (cs, seps))
      | some sep =>
        recursiveChunkAux C fuel
          (.pieces (splitTextWithRegex t sep true) seps.dropLast)
  | fuel + 1, .pieces ps seps =>
    match ps with
    | [] => some ([], seps)
    | p :: rest =>
      if C.tl p ≤ C.chunk_size then
        (recursiveChunkAux C fuel (.pieces rest seps)).map
          (fun r => (p :: r.1, r.2))
      else
        match recursiveChunkAux C fuel (.text p seps) with
        | none => none
        | some (cs, seps') =>
          (recursiveChunkAux C fuel (.pieces rest seps')).map
            (fun r => (cs ++ r.1, r.2))

/-- `TextChunker.recursive_chunk(text, seperators)`. -/
def recursive_chunk (C : TextChunker) (fuel : Nat) (text : String)
    (seps : List String) : Option (List String × List String) :=
  recursiveChunkAux C fuel (.text text seps)

/-- The post-processing loop of `TextChunker.chunk`: merge a chunk below
`chunk_minimum` into its predecessor when the union fits, otherwise into
its successor when that union fits, otherwise keep it unless it is pure
whitespace.  `first` records whether the current index is `0` (the Python
guard `i > 0`); when that guard passes, Python evaluates
`processed_chunks[-1]`, which raises `IndexError` on an empty list.
`fuel` is an artefact (one unit per loop iteration). -/
def chunk_post (C : TextChunker) : Nat → List String → List String → Bool →
    Except ChunkErr (List String)
  | 0, _, _, _ => .error .outOfFuel
  | _ + 1, processed, [], _ => .ok processed
  | fuel + 1, processed, c :: rest, first =>
    let elseBranch : Except ChunkErr (List String) :=
      if pyIsSpace c then chunk_post C fuel processed rest false
      else chunk_post C fuel (processed ++ [c]) rest false
    let elifBranch : Except ChunkErr (List String) :=
      match rest with
      | [] => elseBranch
      | next :: rest' =>
        if C.tl c + C.tl next ≤ C.chunk_size then
          chunk_post C fuel processed ((c ++ next) :: rest') false
        else elseBranch
    if C.tl c < C.chunk_minimum then
      if first then elifBranch
      else
        match processed.getLast? with
        | none => .error .indexError
        | some lastC =>
          if C.tl lastC + C.tl c ≤ C.chunk_size then
            chunk_post C fuel (processed.dropLast ++ [lastC ++ c]) rest false
          else elifBranch
    else chunk_post C fuel (processed ++ [c]) rest false

/-- `TextChunker.chunk(text, seperators)`: recursive splitting followed by
the post-processing pass. -/
def TextChunker.chunk (C : TextChunker) (text : String)
    (seps : List String) : Except ChunkErr (List String) :=
  match recursive_chunk C ((seps.length + 2) * (text.length + 2)) text seps with
  | none => .error .outOfFuel
  | some (cs, _) => chunk_post C (cs.length + 1) [] cs true

end RocketDocs


namespace RocketDocs

/-! ### Properties of the text chunker -/

/-- `simple_chunk_loop` only returns chunk lists that pass
`verify_chunks`. -/
theorem simple_chunk_loop_verified (C : TextChunker) (text : String) :
    ∀ fuel n cs, simple_chunk_loop C text fuel n = some cs →
      verify_chunks C cs = true := by
  intro fuel
  induction fuel with
  | zero => intro n cs h; simp [simple_chunk_loop] at h
  | succ fuel ih =>
    intro n cs h
    simp only [simple_chunk_loop] at h
    split at h
    · cases h; assumption
    · exact ih _ _ h

/-- `simple_chunk` only returns chunk lists that pass `verify_chunks`. -/
theorem simple_chunk_verified (C : TextChunker) (text : String) (cs : List String)
    (h : simple_chunk C text = some cs) : verify_chunks C cs = true := by
  unfold simple_chunk at h
  split at h
  · exact absurd h (by simp)
  · exact simple_chunk_loop_verified C text _ _ _ h

/-- Every chunk produced by `recursive_chunk` has token length at most
`chunk_size`: pieces are only emitted directly when they fit, and
`simple_chunk` re-splits until `verify_chunks` passes. -/
theorem recursiveChunkAux_bound (C : TextChunker) :
    ∀ fuel arg cs seps', recursiveChunkAux C fuel arg = some (cs, seps') →
      ∀ c ∈ cs, C.tl c ≤ C.chunk_size := by
  intro fuel
  induction fuel with
  | zero => intro arg cs seps' h; simp [recursiveChunkAux] at h
  | succ fuel ih =>
    intro arg cs seps' h
    cases arg with
    | text t seps =>
      simp only [recursiveChunkAux] at h
      split at h
      · next hle =>
        cases h
        intro c hc
        simp only [List.mem_singleton] at hc
        subst hc; exact hle
      · next hgt =>
        cases hgl : seps.getLast? with
        | none =>
          rw [hgl] at h
          cases hsc : simple_chunk C t with
          | none => simp [hsc] at h
          | some cs₀ =>
            simp only [hsc, Option.map_some', Option.some.injEq,
              Prod.mk.injEq] at h
            intro c hc
            have hv := simple_chunk_verified C t cs₀ hsc
            rw [← h.1] at hc
            simpa using (List.all_eq_true.mp hv) c hc
        | some sep =>
          rw [hgl] at h
          exact ih _ _ _ h
    | pieces ps seps =>
      cases ps with
      | nil =>
        simp only [recursiveChunkAux] at h
        cases h
        intro c hc
        simp at hc
      | cons p rest =>
        simp only [recursiveChunkAux] at h
        split at h
        · next hle =>
          cases hr : recursiveChunkAux C fuel (.pieces rest seps) with
          | none => simp [hr] at h
          | some r =>
            obtain ⟨r₁, r₂⟩ := r
            simp only [hr, Option.map_some'] at h
            cases h
            intro c hc
            rcases List.mem_cons.mp hc with hcp | hcr
            · subst hcp; exact hle
            · exact ih _ _ _ hr c hcr
        · next hgt =>
          cases ht : recursiveChunkAux C fuel (.text p seps) with
          | none => rw [ht] at h; exact absurd h (by simp)
          | some r =>
            obtain ⟨cs₁, seps₁⟩ := r
            rw [ht] at h
            cases hr : recursiveChunkAux C fuel (.pieces rest seps₁) with
            | none => simp [hr] at h
            | some r' =>
              obtain ⟨r₁, r₂⟩ := r'
              simp only [hr, Option.map_some'] at h
              cases h
              intro c hc
              rcases List.mem_append.mp hc with hc₁ | hc₂
              · exact ih _ _ _ ht c hc₁
              · exact ih _ _ _ hr c hc₂

/-- The post-processing loop preserves the size bound: merges are guarded
by `tl a + tl b ≤ chunk_size` checks, and the token-length function of the
tokenizer is subadditive on concatenation. -/
theorem chunk_post_bound (C : TextChunker)
    (hsub : ∀ a b : String, C.tl (a ++ b) ≤ C.tl a + C.tl b) :
    ∀ fuel processed chunks first out,
      (∀ c ∈ processed, C.tl c ≤ C.chunk_size) →
      (∀ c ∈ chunks, C.tl c ≤ C.chunk_size) →
      chunk_post C fuel processed chunks first = .ok out →
      ∀ c ∈ out, C.tl c ≤ C.chunk_size := by
  intro fuel
  induction fuel with
  | zero =>
    intro processed chunks first out _ _ h
    simp [chunk_post] at h
  | succ fuel ih =>
    intro processed chunks first out hp hc h
    cases chunks with
    | nil =>
      simp only [chunk_post] at h
      cases h; exact hp
    | cons c rest =>
      have hcHead : C.tl c ≤ C.chunk_size := hc c (List.mem_cons_self c rest)
      have hcRest : ∀ x ∈ rest, C.tl x ≤ C.chunk_size :=
        fun x hx => hc x (List.mem_cons_of_mem c hx)
      have hpApp : ∀ x ∈ processed ++ [c], C.tl x ≤ C.chunk_size := by
        intro x hx
        rcases List.mem_append.mp hx with hx₁ | hx₂
        · exact hp x hx₁
        · simp only [List.mem_singleton] at hx₂; subst hx₂; exact hcHead
      simp only [chunk_post] at h
      split at h
      · -- C.tl c < C.chunk_minimum
        split at h
        · -- first = true: try the successor merge
          split at h
          · -- rest = []
            split at h
            · exact ih processed _ false out hp (by intro x hx; simp at hx) h
            · exact ih (processed ++ [c]) _ false out hpApp
                (by intro x hx; simp at hx) h
          · -- rest = next :: rest'
            next next rest' =>
            split at h
            · next hfit =>
              refine ih processed ((c ++ next) :: rest') false out hp ?_ h
              intro x hx
              rcases List.mem_cons.mp hx with hx₁ | hx₂
              · subst hx₁; exact le_trans (hsub c next) hfit
              · exact hcRest x (List.mem_cons_of_mem next hx₂)
            · split at h
              · exact ih processed _ false out hp hcRest h
              · exact ih (processed ++ [c]) _ false out hpApp hcRest h
        · -- first = false: try the predecessor merge
          split at h
          · -- processed.getLast? = none: Python raises IndexError
            exact absurd h (by simp)
          · next lastC hlast =>
            split at h
            · next hfit =>
              refine ih (processed.dropLast ++ [lastC ++ c]) rest false out
                ?_ hcRest h
              intro x hx
              rcases List.mem_append.mp hx with hx₁ | hx₂
              · exact hp x (List.dropLast_subset _ hx₁)
              · simp only [List.mem_singleton] at hx₂
                subst hx₂
                refine le_trans (hsub lastC c) ?_
                exact le_trans (Nat.add_le_add_right
                  (Nat.le_refl _) _) hfit
            · -- union with predecessor does not fit: fall through to elif
              split at h
              · -- rest = []
                split at h
                · exact ih processed _ false out hp
                    (by intro x hx; simp at hx) h
                · exact ih (processed ++ [c]) _ false out hpApp
                    (by intro x hx; simp at hx) h
              · next next rest' =>
                split at h
                · next hfit =>
                  refine ih processed ((c ++ next) :: rest') false out hp ?_ h
                  intro x hx
                  rcases List.mem_cons.mp hx with hx₁ | hx₂
                  · subst hx₁; exact le_trans (hsub c next) hfit
                  · exact hcRest x (List.mem_cons_of_mem next hx₂)
                · split at h
                  · exact ih processed _ false out hp hcRest h
                  · exact ih (processed ++ [c]) _ false out hpApp hcRest h
      · -- chunk at least chunk_minimum: keep it
        exact ih (processed ++ [c]) rest false out hpApp hcRest h

/-- C5: for every input string and separator list, every chunk returned by
`TextChunker.chunk` has token length at most `chunk_size`.  The tokenizer
is external; the only assumption made about it is that concatenating two
strings never yields more tokens than the two parts together
(subadditivity), which the merge guards of the code combine with. -/
theorem chunk_output_within_chunk_size (C : TextChunker) (text : String)
    (seps : List String) (out : List String)
    (hsub : ∀ a b : String, C.tl (a ++ b) ≤ C.tl a + C.tl b)
    (h : C.chunk text seps = .ok out) :
    ∀ c ∈ out, C.tl c ≤ C.chunk_size := by
  unfold TextChunker.chunk at h
  cases hr : recursive_chunk C ((seps.length + 2) * (text.length + 2)) text seps with
  | none => rw [hr] at h; exact absurd h (by simp)
  | some r =>
    obtain ⟨cs, seps'⟩ := r
    rw [hr] at h
    exact chunk_post_bound C hsub (cs.length + 1) [] cs true out
      (by intro x hx; simp at hx)
      (recursiveChunkAux_bound C _ _ _ _ hr) h

/-- Closed instance of `chunk_output_within_chunk_size`: with the
character-count tokenizer, chunking `"hello world"` with separator list
`["\n"]` and `chunk_size = 10` returns `["hello ", "world"]`, and both
chunks satisfy the bound. -/
theorem chunk_output_within_chunk_size_witness :
    String.length "hello " ≤ 10 ∧ String.length "world" ≤ 10 :=
  ⟨chunk_output_within_chunk_size ⟨10, 3, String.length⟩ "hello world"
      ["\n"] ["hello ", "world"]
      (fun a b => le_of_eq (String.length_append a b))
      (by decide) "hello " (by decide),
    chunk_output_within_chunk_size ⟨10, 3, String.length⟩ "hello world"
      ["\n"] ["hello ", "world"]
      (fun a b => le_of_eq (String.length_append a b))
      (by decide) "world" (by decide)⟩

end RocketDocs

namespace RocketDocs

/-- C6 counterexample: splitting `"a\nb"` on the separator `"\n"` yields
`["a", "\nb"]` — the separator is glued onto the piece to its right, not
appended to the piece to its left (which would give `["a\n", "b"]`). -/
theorem split_separator_not_kept_with_left_piece :
    splitTextWithRegex "a\nb" "\n" true = ["a", "\nb"] ∧
      splitTextWithRegex "a\nb" "\n" true ≠ ["a\n", "b"] := by
  decide

/-- C6 amended: when `_split_text_with_regex` splits on a separator
occurrence, the separator is retained with the piece to its RIGHT — every
produced chunk is either the leading piece (before the first separator
occurrence) or `separator ++ piece` for one of the following pieces. -/
theorem split_separator_kept_with_right_piece (text sep : String)
    (hsep : sep ≠ "") :
    ∀ c ∈ splitTextWithRegex text sep true,
      c = (pySplitOn text sep).headI ∨
        ∃ q ∈ pySplitOn text sep, c = sep ++ q := by
  intro c hc
  unfold splitTextWithRegex at hc
  rw [if_pos hsep, if_pos rfl] at hc
  cases hps : pySplitOn text sep with
  | nil => rw [hps] at hc; simp at hc
  | cons p ps =>
    rw [hps] at hc
    have hc' := (List.mem_filter.mp hc).1
    rcases List.mem_cons.mp hc' with hcp | hcm
    · left; rw [hcp, List.headI_cons]
    · right
      obtain ⟨q, hq, hcq⟩ := List.mem_map.mp hcm
      exact ⟨q, List.mem_cons_of_mem p hq, hcq.symm⟩

/-- Closed instance of `split_separator_kept_with_right_piece` at the
counterexample input. -/
theorem split_separator_kept_with_right_piece_witness :
    "\nb" = (pySplitOn "a\nb" "\n").headI ∨
      ∃ q ∈ pySplitOn "a\nb" "\n", "\nb" = "\n" ++ q :=
  split_separator_kept_with_right_piece "a\nb" "\n" (by decide) "\nb"
    (by decide)

/-- C10: `TextChunker.chunk` raises `IndexError` on an input whose first
produced chunk is below `chunk_minimum` and is merged into its successor,
after which the merged chunk is still below `chunk_minimum` and the
predecessor-merge branch evaluates `processed_chunks[-1]` on an empty
list.  With the character-count tokenizer, `chunk_size = 10`,
`chunk_minimum = 5`, text `"ab\nx\nabcdefg"` and separators `["\n"]`:
the recursive split yields `["ab", "\nx", "\nabcdefg"]`; `"ab"` (2 < 5)
merges into `"\nx"` giving `"ab\nx"` (4 < 5), and the next iteration
indexes the empty `processed_chunks`. -/
theorem chunk_raises_index_error :
    TextChunker.chunk ⟨10, 5, String.length⟩ "ab\nx\nabcdefg" ["\n"] =
      Except.error ChunkErr.indexError := by
  decide

end RocketDocs

namespace RocketDocs

/-! ## File prompt construction (services/documentation_service.py,
`generate_doc_for_file`)

The user prompt sent to the LLM for a file document is built by the
f-string
`f"{file.path}:\n{file.decoded_content}\nRemember to respond in less than
100 words."`; no token counting, trimming or truncation marker appears
anywhere in the function (or elsewhere in the source tree). -/

/-- The user prompt of `generate_doc_for_file`. -/
def file_doc_user_prompt (path decoded_content : String) : String :=
  path ++ ":\n" ++ decoded_content ++
    "\nRemember to respond in less than 100 words."

/-- A file content of 28,001 characters (with the character-count model of
the tokenizer, 28,001 tokens — above the claimed 28,000-token budget). -/
def bigFileContent : String := String.mk (List.replicate 28001 'a')

/-- C4 counterexample: the prompt builder performs no trimming.  For a
content above the claimed 28,000-token budget, the produced prompt embeds
the content verbatim (no tail is dropped and no `"\n..."` marker is
appended) and itself exceeds 28,000 tokens. -/
theorem file_prompt_exceeds_budget :
    28000 < bigFileContent.length ∧
      file_doc_user_prompt "a.py" bigFileContent =
        "a.py:\n" ++ bigFileContent ++
          "\nRemember to respond in less than 100 words." ∧
      28000 < (file_doc_user_prompt "a.py" bigFileContent).length := by
  have hlen : bigFileContent.length = 28001 := by
    unfold bigFileContent
    rw [String.length_mk, List.length_replicate]
  have hmono : bigFileContent.length ≤
      (file_doc_user_prompt "a.py" bigFileContent).length := by
    unfold file_doc_user_prompt
    rw [String.length_append, String.length_append, String.length_append]
    omega
  refine ⟨by omega, ?_, by omega⟩
  unfold file_doc_user_prompt
  rw [show ("a.py" ++ ":\n" : String) = "a.py:\n" from rfl]

/-- C4 amended: `generate_doc_for_file` performs no token-budget trimming
at all — for every path and content, the prompt embeds the full content
verbatim between a fixed prefix and a fixed suffix, so a content longer
than 28,000 tokens produces a prompt longer than 28,000 tokens (token
lengths measured with the character-count model of the tokenizer). -/
theorem file_prompt_embeds_full_content (path content : String)
    (h : 28000 < content.length) :
    28000 < (file_doc_user_prompt path content).length ∧
      ∃ pre post, file_doc_user_prompt path content = pre ++ content ++ post := by
  constructor
  · have hmono : content.length ≤ (file_doc_user_prompt path content).length := by
      unfold file_doc_user_prompt
      rw [String.length_append, String.length_append, String.length_append]
      omega
    omega
  · exact ⟨path ++ ":\n",
      "\nRemember to respond in less than 100 words.", rfl⟩

/-- Closed instance of `file_prompt_embeds_full_content` at the
counterexample input. -/
theorem file_prompt_embeds_full_content_witness :
    28000 < (file_doc_user_prompt "a.py" bigFileContent).length ∧
      ∃ pre post,
        file_doc_user_prompt "a.py" bigFileContent = pre ++ bigFileContent ++ post :=
  file_prompt_embeds_full_content "a.py" bigFileContent
    (by unfold bigFileContent
        rw [String.length_mk, List.length_replicate]
        omega)

end RocketDocs

namespace RocketDocs

/-! ## Shared schema types (schemas/documentation_generation.py) -/

/-- `StatusEnum`. -/
inductive StatusEnum where
  | NOT_STARTED
  | IN_PROGRESS
  | COMPLETED
  | FAILED
  deriving DecidableEq, Repr

/-- `FirestoreDocType` (`"file"` / `"dir"`). -/
inductive FirestoreDocType where
  | FILE
  | DIRECTORY
  deriving DecidableEq, Repr

/-- Python `str.startswith` (also used for a tuple of alternatives by
listing the calls). -/
def pyStartsWith (s pre : String) : Bool :=
  pre.data.isPrefixOf s.data

/-- Python `str.endswith`. -/
def pyEndsWith (s suf : String) : Bool :=
  suf.data.reverse.isPrefixOf s.data.reverse

end RocketDocs

namespace RocketDocs

/-! ## Identifier (services/identifier_service.py)

A GitHub tree entry is modelled by `GhContent`: a file carries its name,
path, size and the (external) Magika verdict `is_code` for its decoded
content (`file_info.output.group == "code"`); a directory carries its
name, path and children.  The uuid4 document ids assigned by `identify`
are opaque and unique, so the model uses the entry path as the document
identifier; path uniqueness inside the tree appears as an explicit
hypothesis where a theorem needs it. -/

inductive GhContent where
  | file (name path : String) (size : Nat) (is_code : Bool)
  | dir (name path : String) (children : List GhContent)

/-- The `path` attribute of an entry. -/
def ghPath : GhContent → String
  | .file _ path _ _ => path
  | .dir _ path _ => path

/-- Whether an entry is a directory. -/
def ghIsDir : GhContent → Bool
  | .file _ _ _ _ => false
  | .dir _ _ _ => true

/-- `IdentifierService.exclude_dirs`. -/
def exclude_dirs : List String :=
  [".git", ".github", ".vscode", "node_modules", "venv", "patch",
    "packages/blobs", "dist"]

/-- `IdentifierService.exclude_exts`. -/
def exclude_exts : List String :=
  [".min.js", ".min.js.map", ".min.css", ".min.css.map", ".tfstate",
    ".tfstate.backup", ".jar", ".ipynb", ".png", ".jpg", ".jpeg",
    ".download", ".gif", ".bmp", ".tiff", ".ico", ".mp3", ".wav", ".wma",
    ".ogg", ".flac", ".mp4", ".avi", ".mkv", ".mov", ".patch",
    ".patch.disabled", ".wmv", ".m4a", ".m4v", ".3gp", ".3g2", ".rm",
    ".swf", ".flv", ".iso", ".bin", ".tar", ".zip", ".7z", ".gz", ".rar",
    ".pdf", ".doc", ".docx", ".xls", ".xlsx", ".ppt", ".pptx", ".svg",
    ".parquet", ".pyc", ".pub", ".pem", ".ttf", ".dfn", ".dfm",
    ".feature", "sweep.yaml", "pnpm-lock.yaml", "LICENSE", "poetry.lock"]

/-- `IdentifierService._skip_node`.  For a file: skip when the name starts
with `"_"` or `"."`, ends with an excluded suffix, the size exceeds
247,500 bytes, or (otherwise) Magika does not classify the content as
code.  For a directory: skip when the name starts with `"."` or the path
ends with an `exclude_dirs` entry. -/
def skip_node (node : GhContent) : Bool :=
  match node with
  | .file name _ size is_code =>
    let is_invalid_filename :=
      pyStartsWith name "_" || pyStartsWith name "." ||
        exclude_exts.any (fun e => pyEndsWith name e)
    let is_too_large := size > 247500
    if !is_invalid_filename && !is_too_large then !is_code
    else true
  | .dir name path _ =>
    pyStartsWith name "." || exclude_dirs.any (fun d => pyEndsWith path d)

/-- The breadth-first traversal of `IdentifierService.identify`: pop the
front directory, create a document for every non-skipped child (recorded
as `(entry, parent path)`), and enqueue the non-skipped directory
children.  `fuel` bounds the loop (one unit per dequeued directory). -/
def identifyCollect : Nat → List GhContent → List (GhContent × String)
  | 0, _ => []
  | _ + 1, [] => []
  | fuel + 1, parent :: queue =>
    match parent with
    | .file _ _ _ _ => identifyCollect fuel queue
    | .dir _ ppath children =>
      let kept := children.filter (fun c => !(skip_node c))
      kept.map (fun c => (c, ppath)) ++
        identifyCollect fuel (queue ++ kept.filter ghIsDir)

/-- The documents created by the traversal (id = path, type, parent id):
the root document (`relative_path=""`, type `dir`, no parent) plus one
document per non-skipped discovered entry. -/
def identifyDocs (root : GhContent) (fuel : Nat) :
    List (String × FirestoreDocType × Option String) :=
  ("", .DIRECTORY, none) ::
    (identifyCollect fuel [root]).map
      (fun e => (ghPath e.1, if ghIsDir e.1 then .DIRECTORY else .FILE,
        some e.2))

/-- `contains_only_empty_folders` from
`IdentifierService._remove_undocumentable_folders` (recursing through the
dependency map; `fuel` bounds the recursion depth, one unit per nesting
level). -/
def contains_only_empty_folders (deps : List (String × Option String))
    (isDirOf : String → Bool) : Nat → String → Bool
  | 0, _ => true
  | fuel + 1, folderId =>
    let subfoldersOnlyEmpty := deps.all (fun dp =>
      if dp.2 = some folderId ∧ isDirOf dp.1 then
        contains_only_empty_folders deps isDirOf fuel dp.1
      else true)
    if !subfoldersOnlyEmpty then false
    else
      let containsNonEmpty := deps.any (fun dp =>
        dp.2 = some folderId ∧ !isDirOf dp.1)
      !containsNonEmpty

/-- `IdentifierService._remove_undocumentable_folders` applied to the
created documents: keep files, and keep directories that do not contain
(transitively) only empty folders. -/
def removeUndocumentableFolders
    (docs : List (String × FirestoreDocType × Option String)) :
    List (String × FirestoreDocType × Option String) :=
  let deps := docs.map (fun d => (d.1, d.2.2))
  let isDirOf : String → Bool := fun pid =>
    docs.any (fun d => d.1 = pid ∧ d.2.1 = .DIRECTORY)
  docs.filter (fun d =>
    d.2.1 = .FILE ∨
      (d.2.1 = .DIRECTORY ∧
        ¬ contains_only_empty_folders deps isDirOf docs.length d.1 = true))

/-- The relative paths of the documents produced by
`IdentifierService.identify` (identification plus post-processing). -/
def identifyPaths (root : GhContent) (fuel : Nat) : List String :=
  (removeUndocumentableFolders (identifyDocs root fuel)).map (fun d => d.1)

/-- Occurrence of an entry inside a GitHub tree. -/
inductive Occurs : GhContent → GhContent → Prop where
  | refl (t : GhContent) : Occurs t t
  | child {n c : GhContent} (name path : String)
      (children : List GhContent) :
      c ∈ children → Occurs n c → Occurs n (.dir name path children)

end RocketDocs

namespace RocketDocs

/-! ### Properties of the identifier -/

/-- A concrete repository tree whose root contains a directory named
`_private`, itself containing an ordinary Python source file. -/
def examplePrivateTree : GhContent :=
  .dir "" "" [.dir "_private" "_private"
    [.file "a.py" "_private/a.py" 10 true]]

/-- C7 counterexample: a directory whose basename begins with `_` is NOT
excluded — `_skip_node` tests only `"."` for directories — so `_private`
appears among the created documents. -/
theorem underscore_directory_not_excluded :
    "_private" ∈ identifyPaths examplePrivateTree 10 := by decide

/-- The exclusion conditions of the (amended) claim: files whose name
begins with `"."` or `"_"`, ends with a configured suffix, or whose size
exceeds 247,500 bytes; directories whose basename begins with `"."` or
whose path ends with a configured exclusion entry (such as
`node_modules`). -/
def excluded_entry (n : GhContent) : Bool :=
  match n with
  | .file name _ size _ =>
    pyStartsWith name "." || pyStartsWith name "_" ||
      exclude_exts.any (fun e => pyEndsWith name e) || size > 247500
  | .dir name path _ =>
    pyStartsWith name "." || exclude_dirs.any (fun d => pyEndsWith path d)

/-- Every entry satisfying the claim conditions is skipped by
`_skip_node`. -/
theorem skip_node_of_excluded (n : GhContent)
    (h : excluded_entry n = true) : skip_node n = true := by
  cases n with
  | file name path size is_code =>
    simp only [excluded_entry, Bool.or_eq_true, decide_eq_true_eq] at h
    simp only [skip_node]
    rcases h with ((h1 | h1) | h1) | h1 <;>
      simp [h1]
  | dir name path children =>
    simpa [skip_node, excluded_entry] using h

/-- Everything recorded by the identification traversal is a non-skipped
entry occurring below one of the queued entries. -/
theorem identifyCollect_mem :
    ∀ (fuel : Nat) (queue : List GhContent) (x : GhContent) (pp : String),
      (x, pp) ∈ identifyCollect fuel queue →
      skip_node x = false ∧ ∃ q ∈ queue, Occurs x q := by
  intro fuel
  induction fuel with
  | zero => intro queue x pp h; simp [identifyCollect] at h
  | succ fuel ih =>
    intro queue x pp h
    cases queue with
    | nil => simp [identifyCollect] at h
    | cons parent rest =>
      cases parent with
      | file name path size is_code =>
        simp only [identifyCollect] at h
        obtain ⟨hskip, q, hq, hocc⟩ := ih rest x pp h
        exact ⟨hskip, q, List.mem_cons_of_mem _ hq, hocc⟩
      | dir name ppath children =>
        simp only [identifyCollect] at h
        rcases List.mem_append.mp h with h₁ | h₂
        · obtain ⟨c, hc, hce⟩ := List.mem_map.mp h₁
          have hcx : c = x := congrArg Prod.fst hce
          subst hcx
          have hfil := List.mem_filter.mp hc
          refine ⟨by simpa using hfil.2, .dir name ppath children,
            List.mem_cons_self _ _, ?_⟩
          exact Occurs.child name ppath children hfil.1 (Occurs.refl c)
        · obtain ⟨hskip, q, hq, hocc⟩ := ih _ x pp h₂
          rcases List.mem_append.mp hq with hq₁ | hq₂
          · exact ⟨hskip, q, List.mem_cons_of_mem _ hq₁, hocc⟩
          · have hqc := List.mem_filter.mp (List.mem_of_mem_filter hq₂)
            exact ⟨hskip, .dir name ppath children,
              List.mem_cons_self _ _,
              Occurs.child name ppath children hqc.1 hocc⟩

/-- Post-processing only removes documents. -/
theorem removeUndocumentableFolders_subset
    (docs : List (String × FirestoreDocType × Option String)) :
    ∀ d ∈ removeUndocumentableFolders docs, d ∈ docs := by
  intro d hd
  exact List.mem_of_mem_filter hd

/-- C7 amended: any file whose name begins with `"."` or `"_"`, ends with
a configured binary/asset/lockfile suffix, or exceeds 247,500 bytes, and
any directory whose basename begins with `"."` (which subsumes `".."`) or
whose path ends with a configured exclusion entry (`node_modules` among
them), is absent from the documents created by `identify`.  (Directories
beginning with `"_"` are NOT excluded — see the counterexample.)  Path
uniqueness within the tree and a nonempty path are assumed, matching real
repository trees; the root document itself always has path `""`. -/
theorem identifier_excludes_claimed_entries (root : GhContent) (fuel : Nat)
    (n : GhContent)
    (hocc : Occurs n root)
    (hex : excluded_entry n = true)
    (hpath : ghPath n ≠ "")
    (huniq : ∀ m, Occurs m root → ghPath m = ghPath n → m = n) :
    ghPath n ∉ identifyPaths root fuel := by
  intro hmem
  unfold identifyPaths at hmem
  obtain ⟨d, hd, hdp⟩ := List.mem_map.mp hmem
  have hd' := removeUndocumentableFolders_subset _ d hd
  unfold identifyDocs at hd'
  rcases List.mem_cons.mp hd' with h₁ | h₂
  · rw [h₁] at hdp
    exact hpath hdp.symm
  · obtain ⟨e, he, hde⟩ := List.mem_map.mp h₂
    obtain ⟨hskip, q, hq, hocc'⟩ := identifyCollect_mem fuel [root] e.1 e.2 he
    have hqroot : q = root := by simpa using hq
    subst hqroot
    have hpe : ghPath e.1 = ghPath n := by
      rw [← hdp, ← hde]
    have hen := huniq e.1 hocc' hpe
    rw [hen] at hskip
    rw [skip_node_of_excluded n hex] at hskip
    exact absurd hskip (by simp)

end RocketDocs

namespace RocketDocs

/-- A concrete tree with a file whose name begins with `"_"` next to an
ordinary file. -/
def exampleSkippedTree : GhContent :=
  .dir "" "" [.file "_hidden.py" "_hidden.py" 5 true,
    .file "b.py" "b.py" 5 true]

/-- Closed instance of `identifier_excludes_claimed_entries`: the file
`_hidden.py` is absent from the identification result. -/
theorem identifier_excludes_claimed_entries_witness :
    ghPath (.file "_hidden.py" "_hidden.py" 5 true) ∉
      identifyPaths exampleSkippedTree 10 :=
  identifier_excludes_claimed_entries exampleSkippedTree 10
    (.file "_hidden.py" "_hidden.py" 5 true)
    (Occurs.child "" ""
      [.file "_hidden.py" "_hidden.py" 5 true, .file "b.py" "b.py" 5 true]
      (List.mem_cons_self _ _) (Occurs.refl _))
    (by decide) (by decide)
    (by
      intro m hm hp
      have hm' : Occurs m (GhContent.dir "" ""
          [.file "_hidden.py" "_hidden.py" 5 true,
            .file "b.py" "b.py" 5 true]) := hm
      cases hm'
      case refl => exact absurd hp (by decide)
      case child =>
        rename_i c hocc hmem
        rcases List.mem_cons.mp hmem with hc | hc
        · subst hc
          cases hocc
          case refl => rfl
        · have hc' : c = .file "b.py" "b.py" 5 true := by simpa using hc
          subst hc'
          cases hocc
          case refl => exact absurd hp (by decide))

end RocketDocs

namespace RocketDocs

/-! ## Chat agent (services/chat_service.py)

The LLM is external: it enters the model as a function from the current
`chat_history` (a list of `(role, content)` messages) to the assistant
output string.  The vector search behind `execute_action` involves the
search service, the document store and the network, so it enters as an
oracle from the query to either a result string or an exception. -/

/-- Exceptions of the chat loop.  `typeError` is the `TypeError` raised by
the fallback path, which calls `self.search(repo_id, query)` although
`search` requires three arguments `(repo_id, input, user_id)`. -/
inductive ChatErr where
  | wrongFormatting
  | invalidAction
  | searchError
  | typeError
  deriving DecidableEq, Repr

/-- The single-quote character (used in the strip sets of the parser). -/
def pyQuoteChar : Char := Char.ofNat 39

/-- `ChatService.extract_step`: drop leading colons, strip whitespace,
then strip surrounding quotes. -/
def extract_step (unparsed_step : String) : String :=
  pyStripChars (pyStrip (pyLStrip unparsed_step [':'])) [pyQuoteChar, '"']

/-- `ChatService.parse_step`: locate the `Thought` and `Action` markers
and extract the two step texts (`len("Thought") = 7`,
`len("Action") = 6`); a missing marker raises `WrongFormattingError`. -/
def parse_step (agent_output : String) : Except ChatErr (String × String) :=
  match pyFind agent_output "Thought", pyFind agent_output "Action" with
  | none, _ => .error .wrongFormatting
  | some _, none => .error .wrongFormatting
  | some thought_start, some action_start =>
    .ok (extract_step (pySlice agent_output (thought_start + 7) action_start),
      extract_step (pySliceFrom agent_output (action_start + 6)))

/-- `ChatService.extract_action`: dispatch on the `Search` / `Finish`
prefix and strip the bracketed argument; anything else raises
`InvalidAction`. -/
def extract_action (action : String) : Except ChatErr (String × String) :=
  if pyStartsWith action "Search" then
    .ok ("Search",
      pyStripChars (pySliceFrom action 6) [' ', '[', ']', '"', pyQuoteChar])
  else if pyStartsWith action "Finish" then
    .ok ("Finish",
      pyStripChars (pySliceFrom action 6) [' ', '[', ']', '"', pyQuoteChar])
  else .error .invalidAction

/-- `ChatService.execute_action`: `Search` runs the retrieval oracle,
`Finish` returns its input. -/
def execute_action (searchO : String → Except ChatErr String)
    (action input : String) : Except ChatErr String :=
  if action = "Search" then searchO input
  else if action = "Finish" then .ok input
  else .error .invalidAction

/-- Stand-in for `CHATBOT_SYS_PROMPT` (services/_prompts.py); the control
flow never inspects its contents. -/
def CHATBOT_SYS_PROMPT : String := "CHATBOT_SYS_PROMPT"

/-- The `for i in range(max_steps)` loop of `ChatService.chat`: ask the
LLM, parse, yield the event, stop on `Finish`, execute `Search` and
extend the transcript, and fall out to the fallback path on any
exception.  Returns the yielded events and whether the loop returned via
`Finish` (in which case the generator is done and the fallback never
runs). -/
def chat_loop (llm : List (String × String) → String)
    (searchO : String → Except ChatErr String) :
    Nat → List (String × String) → List (String × String) × Bool
  | 0, _ => ([], false)
  | fuel + 1, hist =>
    let llm_output := llm hist
    let hist1 := hist ++ [("assistant", llm_output)]
    match parse_step llm_output with
    | .error _ => ([], false)
    | .ok (thought, actionStr) =>
      match extract_action actionStr with
      | .error _ => ([], false)
      | .ok (action, action_input) =>
        if action = "Finish" then ([(action, action_input)], true)
        else
          match execute_action searchO action action_input with
          | .error _ => ([(action, action_input)], false)
          | .ok output =>
            let hist2 := hist1.dropLast ++
              [("assistant",
                  "Thought: " ++ thought ++ "\n\nAction: " ++ action),
                ("user", "Result: " ++ output)]
            let r := chat_loop llm searchO fuel hist2
            ((action, action_input) :: r.1, r.2)

/-- `ChatService.chat`: the bounded loop (`max_steps = 4`) followed, when
the loop did not return via `Finish`, by the fallback path — which calls
`self.search(repo_id, query)` with a missing `user_id` argument and
therefore raises `TypeError` before yielding anything.  The result is the
list of yielded events `(action, output)` together with the final outcome
of the generator. -/
def chat (llm : List (String × String) → String)
    (searchO : String → Except ChatErr String) (query : String) :
    List (String × String) × Except ChatErr Unit :=
  let hist0 := [("system", CHATBOT_SYS_PROMPT),
    ("user", "Question: " ++ query)]
  let r := chat_loop llm searchO 4 hist0
  if r.2 then (r.1, .ok ())
  else (r.1, .error .typeError)

end RocketDocs

namespace RocketDocs

/-! ### Properties of the chat agent -/

/-- Shape of the event stream produced by the chat loop: at most one
event per iteration; a `Finish` event ends the loop (so it is last and
unique), and when the loop ends without `Finish` no event is a
`Finish`. -/
theorem chat_loop_events (llm : List (String × String) → String)
    (searchO : String → Except ChatErr String) :
    ∀ fuel hist,
      (chat_loop llm searchO fuel hist).1.length ≤ fuel ∧
      ((chat_loop llm searchO fuel hist).2 = true →
        ∃ evs' e, (chat_loop llm searchO fuel hist).1 = evs' ++ [e] ∧
          e.1 = "Finish" ∧ ∀ e' ∈ evs', e'.1 ≠ "Finish") ∧
      ((chat_loop llm searchO fuel hist).2 = false →
        ∀ e ∈ (chat_loop llm searchO fuel hist).1, e.1 ≠ "Finish") := by
  intro fuel
  induction fuel with
  | zero => intro hist; simp [chat_loop]
  | succ fuel ih =>
    intro hist
    simp only [chat_loop]
    cases hp : parse_step (llm hist) with
    | error e => simp
    | ok ta =>
      obtain ⟨thought, actionStr⟩ := ta
      dsimp only
      cases he : extract_action actionStr with
      | error e => simp
      | ok ai =>
        obtain ⟨action, action_input⟩ := ai
        dsimp only
        by_cases hf : action = "Finish"
        · subst hf
          refine ⟨by simp, fun _ => ⟨[], ("Finish", action_input),
            by simp⟩, ?_⟩
          simp
        · simp only [if_neg hf]
          cases hx : execute_action searchO action action_input with
          | error e =>
            refine ⟨by simp, ?_, ?_⟩
            · intro hcontra; simp at hcontra
            · intro _ e' he'
              simp only [List.mem_singleton] at he'
              subst he'
              exact hf
          | ok output =>
            dsimp only
            simp only [List.dropLast_concat]
            obtain ⟨ih₁, ih₂, ih₃⟩ := ih (hist ++
              [("assistant",
                  "Thought: " ++ thought ++ "\n\nAction: " ++ action),
                ("user", "Result: " ++ output)])
            refine ⟨by simpa using Nat.add_le_add_right ih₁ 1, ?_, ?_⟩
            · intro hfin
              obtain ⟨evs', e, heq, hef, hne⟩ := ih₂ hfin
              refine ⟨(action, action_input) :: evs', e, by simp [heq],
                hef, ?_⟩
              intro e' he'
              rcases List.mem_cons.mp he' with h₁ | h₁
              · subst h₁; exact hf
              · exact hne e' h₁
            · intro hfin e' he'
              rcases List.mem_cons.mp he' with h₁ | h₁
              · subst h₁; exact hf
              · exact ih₃ hfin e' h₁

/-- C8 amended: `chat` emits at most 5 events and at most one `Finish`
event; a `Finish` event, when present, is the last event of the stream.
(The original claim also required exactly one `Finish` and `Finish`
directly after any `Search`; both fail — see the counterexample — because
nothing in `extract_action` suppresses a second `Search`, and the
fallback path raises a `TypeError` instead of emitting a final
`Finish`.) -/
theorem chat_event_stream_shape (llm : List (String × String) → String)
    (searchO : String → Except ChatErr String) (query : String) :
    (chat llm searchO query).1.length ≤ 5 ∧
      ((chat llm searchO query).1.filter
        (fun e => e.1 = "Finish")).length ≤ 1 ∧
      ∀ e ∈ (chat llm searchO query).1.dropLast, e.1 ≠ "Finish" := by
  obtain ⟨h₁, h₂, h₃⟩ := chat_loop_events llm searchO 4
    [("system", CHATBOT_SYS_PROMPT), ("user", "Question: " ++ query)]
  unfold chat
  dsimp only
  split
  · next hfin =>
    obtain ⟨evs', e, heq, hef, hne⟩ := h₂ hfin
    refine ⟨by dsimp only; omega, ?_, ?_⟩
    · rw [heq, List.filter_append]
      have hnil : evs'.filter (fun e => e.1 = "Finish") = [] := by
        rw [List.filter_eq_nil_iff]
        intro a ha
        simpa using hne a ha
      simp [hnil, hef]
    · rw [heq, List.dropLast_concat]
      exact hne
  · next hfin =>
    have hfin' : (chat_loop llm searchO 4
        [("system", CHATBOT_SYS_PROMPT),
          ("user", "Question: " ++ query)]).2 = false := by
      simpa using hfin
    refine ⟨by dsimp only; omega, ?_, ?_⟩
    · have hnil : (chat_loop llm searchO 4
          [("system", CHATBOT_SYS_PROMPT),
            ("user", "Question: " ++ query)]).1.filter
          (fun e => e.1 = "Finish") = [] := by
        rw [List.filter_eq_nil_iff]
        intro a ha
        simpa using h₃ hfin' a ha
      simp [hnil]
    · intro e he
      exact h₃ hfin' e (List.dropLast_subset _ he)

/-- C8 counterexample: with an LLM that always answers
`"Thought: t\nAction: Search[q]"` and a search oracle that succeeds,
`chat` emits four consecutive `Search` events and no `Finish` event at
all (the fallback raises `TypeError`), contradicting both "exactly one
Finish" and "after any Search the next non-fallback event is Finish". -/
theorem chat_two_searches_and_no_finish :
    chat (fun _ => "Thought: t\nAction: Search[q]")
        (fun _ => .ok "r") "how do I create a board?" =
      ([("Search", "q"), ("Search", "q"), ("Search", "q"), ("Search", "q")],
        .error .typeError) := by
  decide

end RocketDocs

namespace RocketDocs

/-! ## Embedding pipeline (services/rag_service/embedding_service.py)

`generate_markdown_embeddings_for_repo` first reads
`vector_database_client.describe()["namespaces"]` — note that the Python
function references the module-level name `vector_database_client`, which
is bound (to the same Pinecone client instance the service is constructed
with) only when the module runs as a script; in any other configuration
the lookup raises `NameError` before anything else happens.  The model
therefore takes the module-global binding as an `Option` holding the
namespace list of the Pinecone index.  Embedding a document chunks its
markdown and upserts the resulting vectors, so the list of embedded
document ids returned by the model is the witness for the upserts the
call performs: an early error means no upsert happens at all. -/

/-- Errors of the embedding pipeline entry point. -/
inductive EmbErr where
  | nameError
  | namespaceConflict409
  deriving DecidableEq, Repr

/-- `RepoNode` (schemas/documentation_generation.py), restricted to the
fields the embedding traversal reads. -/
structure RepoNode where
  id : String
  completion_status : StatusEnum
  children : List RepoNode

/-- The `while q` BFS of `generate_markdown_embeddings_for_repo`: embed
the front node unconditionally, then enqueue the children whose
`completion_status` is `COMPLETED`.  Returns the embedded document ids in
order; `fuel` is an artefact (one unit per dequeued node). -/
def bfsEmbedQueue : Nat → List RepoNode → List String
  | 0, _ => []
  | _ + 1, [] => []
  | fuel + 1, n :: q =>
    n.id :: bfsEmbedQueue fuel
      (q ++ n.children.filter (fun c => c.completion_status = .COMPLETED))

/-- `EmbeddingService.generate_markdown_embeddings_for_repo`: refuse with
HTTP 409 when a namespace equal to `repo_id` already exists, otherwise
traverse the formatted tree and embed.  The first component of the result
is the list of document ids whose vectors were upserted. -/
def generate_markdown_embeddings_for_repo
    (moduleGlobalNamespaces : Option (List String)) (repo_id : String)
    (tree : List RepoNode) (fuel : Nat) :
    List String × Except EmbErr Unit :=
  match moduleGlobalNamespaces with
  | none => ([], .error .nameError)
  | some namespaces =>
    if repo_id ∈ namespaces then ([], .error .namespaceConflict409)
    else (bfsEmbedQueue fuel tree, .ok ())

/-- C9: when the module-global vector client is bound (the configuration
in which the function runs at all), a `repo_id` whose namespace already
exists is refused with the 409 conflict and nothing is upserted, and a
`repo_id` with no existing namespace proceeds to the embedding
traversal. -/
theorem embeddings_namespace_conflict_guard
    (g : Option (List String)) (ns : List String) (repo_id : String)
    (tree : List RepoNode) (fuel : Nat) (hg : g = some ns) :
    (repo_id ∈ ns →
      generate_markdown_embeddings_for_repo g repo_id tree fuel =
        ([], .error .namespaceConflict409)) ∧
    (repo_id ∉ ns →
      generate_markdown_embeddings_for_repo g repo_id tree fuel =
        (bfsEmbedQueue fuel tree, .ok ())) := by
  subst hg
  constructor <;> intro h <;>
    simp [generate_markdown_embeddings_for_repo, h]

/-- Closed instance of `embeddings_namespace_conflict_guard`. -/
theorem embeddings_namespace_conflict_guard_witness :
    (generate_markdown_embeddings_for_repo (some ["r1"]) "r1"
        [⟨"d", .COMPLETED, []⟩] 5 = ([], .error .namespaceConflict409)) ∧
    (generate_markdown_embeddings_for_repo (some ["r1"]) "r2"
        [⟨"d", .COMPLETED, []⟩] 5 = (["d"], .ok ())) :=
  ⟨(embeddings_namespace_conflict_guard (some ["r1"]) ["r1"] "r1"
      [⟨"d", .COMPLETED, []⟩] 5 rfl).1 (by decide),
    (embeddings_namespace_conflict_guard (some ["r1"]) ["r1"] "r2"
      [⟨"d", .COMPLETED, []⟩] 5 rfl).2 (by decide)⟩

end RocketDocs

namespace RocketDocs

/-! ## Documentation service (services/documentation_service.py)

Data model: `FirestoreDoc` mirrors the pydantic model, every field
optional with default `None`.  `DataService.update_documentation` passes
`FirestoreDoc(...).model_dump()` (without `exclude_unset`) to Firestore
`update`, so every field of the stored record is written — unset fields
are written as null — which makes each update a whole-record replacement;
`get_documentation` overwrites the `id` field with the snapshot id.

The two LLM-bound generation paths are external effects: fetching the
GitHub file plus `generate_doc_for_file` enters the model as the oracle
`fileGen`, and the LLM calls of `generate_doc_for_folder` (after its own
validation, which stays in the model) as the oracle `folderLlm`. -/

/-- `CompletionUsage` (token counters). -/
structure Usage where
  completion_tokens : Nat
  prompt_tokens : Nat
  total_tokens : Nat
  deriving DecidableEq, Repr

/-- The dynamic `extracted_data` JSON object, as a key-value list. -/
abbrev ExtractedData := List (String × String)

/-- `FirestoreDoc` (schemas/documentation_generation.py). -/
structure FirestoreDoc where
  id : Option String := none
  github_url : Option String := none
  relative_path : Option String := none
  type : Option FirestoreDocType := none
  size : Option Nat := none
  extracted_data : Option ExtractedData := none
  markdown_content : Option String := none
  usage : Option Usage := none
  status : Option StatusEnum := none
  repo : Option String := none
  owner : Option String := none
  deriving DecidableEq, Repr

/-- `GeneratedDoc` (schemas/documentation_generation.py). -/
structure GeneratedDoc where
  relative_path : Option String := none
  usage : Option Usage := none
  extracted_data : ExtractedData := []
  markdown_content : String := ""
  deriving DecidableEq, Repr

/-- `FirestoreRepo`, restricted to the fields the scheduler reads.  The
`dependencies` dict (child id → parent id, root mapping to `None`) is an
association list with unique keys. -/
structure FirestoreRepo where
  id : Option String := none
  dependencies : List (String × Option String) := []
  root_doc : Option String := none
  status : Option StatusEnum := none

/-- Python exceptions raised by the documentation service.  `httpExc`
carries the FastAPI status code and detail; `attributeError` models
attribute access on `None`; `fuelExhausted` is the artefact marker for a
loop that exceeds its fuel; `other` lets the oracles raise arbitrary
distinguishable exceptions. -/
inductive PyErr where
  | httpExc (statusCode : Nat) (detail : String)
  | attributeError
  | fuelExhausted
  | other (tag : Nat)
  deriving DecidableEq, Repr

/-- `HTTPException(400, "Dependencies are not completed yet.")` — the
`DependencyNotReady` failure of `_validate_dependencies`. -/
def dependenciesNotCompleted : PyErr :=
  .httpExc 400 "Dependencies are not completed yet."

/-- `HTTPException(500, "Dependencies cannot be empty")`. -/
def dependenciesEmpty : PyErr :=
  .httpExc 500 "Dependencies cannot be empty"

/-- `HTTPException(400, "Folder cannot be empty")`. -/
def folderEmpty : PyErr := .httpExc 400 "Folder cannot be empty"

/-- `HTTPException(400, "Files are still being generated")`. -/
def filesInProgress : PyErr := .httpExc 400 "Files are still being generated"

/-- `HTTPException(500, "Doc type not supported")`. -/
def docTypeNotSupported : PyErr := .httpExc 500 "Doc type not supported"

/-- `HTTPException(400, "Repo does not have a root or dependencies.")`. -/
def repoInvalid : PyErr :=
  .httpExc 400 "Repo does not have a root or dependencies."

/-- `HTTPException(400, "Repo is already in progress.")`. -/
def repoInProgress : PyErr := .httpExc 400 "Repo is already in progress."

/-- The documentation collection, keyed by document id. -/
abbrev DocStore := String → Option FirestoreDoc

/-- `DataService.get_documentation`: fetch the record and overwrite its
`id` field with the snapshot id (`document_dict["id"] = ...`); a missing
record yields `None`. -/
def get_documentation (store : DocStore) (doc_id : String) :
    Option FirestoreDoc :=
  (store doc_id).map (fun d => { d with id := some doc_id })

/-- `DataService.update_documentation` with a full `model_dump()`:
replaces the stored record. -/
def update_documentation (store : DocStore) (doc_id : String)
    (data : FirestoreDoc) : DocStore :=
  fun k => if k = doc_id then some data else store k

/-- The per-leaf generation oracles (GitHub fetch plus LLM calls). -/
structure GenOracles where
  fileGen : FirestoreDoc → Except PyErr GeneratedDoc
  folderLlm : FirestoreDoc → List FirestoreDoc → Except PyErr GeneratedDoc

/-- The dependent part of `_validate_dependencies`: walk the dependency
documents in order; accessing `.status` on a missing (`None`) document
raises `AttributeError`, a non-`COMPLETED` status raises the 400; returns
the unwrapped documents. -/
def validateDepsLoop :
    List (Option FirestoreDoc) → Except PyErr (List FirestoreDoc)
  | [] => .ok []
  | none :: _ => .error .attributeError
  | some d :: rest =>
    if d.status ≠ some .COMPLETED then .error dependenciesNotCompleted
    else (validateDepsLoop rest).map (fun ds => d :: ds)

/-- `DocumentationService._validate_dependencies`: a directory with an
empty dependency list raises the 500, then every dependency must be
`COMPLETED`; returns the unwrapped parent and dependency documents. -/
def validate_dependencies (parent : Option FirestoreDoc)
    (dependencies : List (Option FirestoreDoc)) :
    Except PyErr (FirestoreDoc × List FirestoreDoc) :=
  match parent with
  | none => .error .attributeError
  | some p =>
    if p.type = some .DIRECTORY ∧ dependencies = [] then
      .error dependenciesEmpty
    else (validateDepsLoop dependencies).map (fun ds => (p, ds))

/-- The file loop of `_validate_folder_and_files`. -/
def validateFilesLoop : List FirestoreDoc → Except PyErr Unit
  | [] => .ok ()
  | f :: rest =>
    if f.status ≠ some .COMPLETED then .error filesInProgress
    else validateFilesLoop rest

/-- `DocumentationService._validate_folder_and_files`. -/
def validate_folder_and_files (folder : FirestoreDoc)
    (files : List FirestoreDoc) : Except PyErr Unit :=
  if folder.type ≠ some .DIRECTORY then .error folderEmpty
  else validateFilesLoop files

/-- `DocumentationService.generate_doc_for_folder`: its own validation
followed by the folder LLM pipeline (oracle). -/
def generate_doc_for_folder (O : GenOracles) (folder : FirestoreDoc)
    (files : List FirestoreDoc) : Except PyErr GeneratedDoc :=
  match validate_folder_and_files folder files with
  | .error e => .error e
  | .ok _ => O.folderLlm folder files

/-- The `try` body of `generate_doc`: dispatch on the document type; a
file fetches the GitHub content and generates (oracle), a directory runs
`generate_doc_for_folder`, anything else raises the 500. -/
def doc_generation (O : GenOracles) (doc : FirestoreDoc)
    (dep_docs : List FirestoreDoc) : Except PyErr GeneratedDoc :=
  match doc.type with
  | some .FILE => O.fileGen doc
  | some .DIRECTORY => generate_doc_for_folder O doc dep_docs
  | none => .error docTypeNotSupported

/-- The record written by `update_documentation(doc_id,
FirestoreDoc(status=IN_PROGRESS))`. -/
def inProgressRecord : FirestoreDoc := { status := some .IN_PROGRESS }

/-- The record written on failure
(`FirestoreDoc(status=StatusEnum.FAILED)`). -/
def failedRecord : FirestoreDoc := { status := some .FAILED }

/-- The record written on success (extracted data, markdown, usage,
`COMPLETED`). -/
def completedRecord (g : GeneratedDoc) : FirestoreDoc :=
  { extracted_data := some g.extracted_data,
    markdown_content := some g.markdown_content,
    usage := g.usage,
    status := some .COMPLETED }

/-- `DocumentationService.generate_doc`: read the document and its
dependency documents, validate, mark `IN_PROGRESS`, generate, then write
either the failure record (re-raising the same exception) or the
completed record.  Returns the updated store, the ordered list of store
writes performed, and the outcome.  The failure branch updates `doc.id`,
which `get_documentation` has set to `doc_id`. -/
def generate_doc (O : GenOracles) (store : DocStore) (doc_id : String)
    (dependencies : List String) :
    DocStore × List (String × FirestoreDoc) × Except PyErr Unit :=
  match validate_dependencies (get_documentation store doc_id)
      (dependencies.map (get_documentation store)) with
  | .error e => (store, [], .error e)
  | .ok (doc, dep_docs) =>
    let store1 := update_documentation store doc_id inProgressRecord
    match doc_generation O doc dep_docs with
    | .error e =>
      (update_documentation store1 doc_id failedRecord,
        [(doc_id, inProgressRecord), (doc_id, failedRecord)], .error e)
    | .ok g =>
      (update_documentation store1 doc_id (completedRecord g),
        [(doc_id, inProgressRecord), (doc_id, completedRecord g)], .ok ())

end RocketDocs

namespace RocketDocs

/-! ### The repository scheduler
(`generate_repo_docs_background_task`)

The in-memory `indegree` dict (a `defaultdict(int)`) and the
`children_graph` are modelled over association lists that preserve
Python dict insertion order.  A Python dict access that would raise
`KeyError` cannot occur in the scheduler (leaves are always keys of
`dgraph`), and the corresponding model branch leaves the map unchanged. -/

/-- First value bound to `k` in an association list. -/
def alistFind {α : Type} (m : List (String × α)) (k : String) : Option α :=
  match m with
  | [] => none
  | (k', v) :: t => if k' = k then some v else alistFind t k

/-- In-place update of the binding of `k` (append when absent — the
`defaultdict` behaviour). -/
def alistSet {α : Type} (m : List (String × α)) (k : String) (v : α) :
    List (String × α) :=
  match m with
  | [] => [(k, v)]
  | (k', v') :: t =>
    if k' = k then (k, v) :: t else (k', v') :: alistSet t k v

/-- `indegree[k] += d` on a `defaultdict(int)`: a missing key is created
with value `0` first. -/
def alistBump (m : List (String × Int)) (k : String) (d : Int) :
    List (String × Int) :=
  match alistFind m k with
  | some v => alistSet m k (v + d)
  | none => m ++ [(k, d)]

/-- `m.pop(k)` keeping the order of the remaining entries. -/
def alistPop {α : Type} (m : List (String × α)) (k : String) :
    List (String × α) :=
  m.filter (fun e => e.1 ≠ k)

/-- The children of `p` according to the dependency map: the child keys
mapping to `p`, in map order (`if parent:` makes an empty-string parent
falsy, exactly as in the `children_graph` construction). -/
def childrenOf (dg : List (String × Option String)) (p : String) :
    List String :=
  (dg.filter (fun cp => cp.2 = some p ∧ p ≠ "")).map (fun cp => cp.1)

/-- The loop body of the in-degree construction: `if parent:
indegree[parent] += 1`. -/
def indegreeInitStep (m : List (String × Int))
    (cp : String × Option String) : List (String × Int) :=
  match cp.2 with
  | some p => if p ≠ "" then alistBump m p 1 else m
  | none => m

/-- The initial in-degree map: every node of `dgraph` with degree `0` in
map order, then one increment of the parent for every child with a truthy
parent. -/
def indegreeInit (dg : List (String × Option String)) :
    List (String × Int) :=
  dg.foldl indegreeInitStep (dg.map (fun cp => (cp.1, (0 : Int))))

/-- The repository record state touched by the scheduler: the document
store and the repo record status. -/
structure RepoState where
  docs : DocStore
  repoStatus : Option StatusEnum

/-- Modelled from the spec: `DataService.update_repo` is called by the
scheduler (documentation_service.py:203 and :239) but is not defined
anywhere under the source tree; per the spec the Document Store
"persist[s] per-document and per-repository records with status fields"
through scoped updates keyed by `repo_id`, so the call is modelled as
setting the repository record's status field. -/
def update_repo (st : RepoState) (s : StatusEnum) : RepoState :=
  { st with repoStatus := some s }

/-- One round's concurrent batch:
`await self._run_concurrently(tasks, 30)` runs every task and collects
the ordered results (`return_exceptions=True`).  The tasks of a round
touch pairwise distinct documents (each task writes only its own leaf),
so running them in order is a faithful linearisation of the batch;
the bound 30 only limits how many run at once and does not affect the
resulting store or results. -/
def run_leaves (O : GenOracles) (dg : List (String × Option String)) :
    DocStore → List String → DocStore × List (Except PyErr Unit)
  | store, [] => (store, [])
  | store, l :: ls =>
    let r := generate_doc O store l (childrenOf dg l)
    let rest := run_leaves O dg r.1 ls
    (rest.1, r.2.2 :: rest.2)

/-- `for result in results: if isinstance(result, BaseException): raise
result` — the first exception of the round, in batch order. -/
def firstError : List (Except PyErr Unit) → Option PyErr
  | [] => none
  | .error e :: _ => some e
  | .ok _ :: rest => firstError rest

/-- The bookkeeping after a successful round: for each leaf, decrement
the parent's degree (when the parent is truthy) and pop the leaf. -/
def step_indegree (dg : List (String × Option String)) :
    List (String × Int) → List String → List (String × Int)
  | indeg, [] => indeg
  | indeg, l :: ls =>
    let indeg1 :=
      match alistFind dg l with
      | some (some p) => if p ≠ "" then alistBump indeg p (-1) else indeg
      | _ => indeg
    step_indegree dg (alistPop indeg1 l) ls

/-- The `while root in indegree` loop: in each round take the nodes of
in-degree `0`, run the batch, raise the first failure, otherwise update
the in-degree map and continue; when the root has left the map, mark the
repository `COMPLETED`.  Returns the final state, the schedule (the
leaves of each executed round, the failing round included), and the
outcome.  `fuel` is an artefact (one unit per round). -/
def run_rounds (O : GenOracles) (dg : List (String × Option String))
    (root : String) :
    Nat → List (String × Int) → RepoState →
    RepoState × List (List String) × Except PyErr Unit
  | 0, indeg, st =>
    if root ∈ indeg.map Prod.fst then (st, [], .error .fuelExhausted)
    else (update_repo st .COMPLETED, [], .ok ())
  | fuel + 1, indeg, st =>
    if root ∈ indeg.map Prod.fst then
      let leaves := (indeg.filter (fun e => e.2 = 0)).map Prod.fst
      let r := run_leaves O dg st.docs leaves
      let st1 : RepoState := { st with docs := r.1 }
      match firstError r.2 with
      | some e => (st1, [leaves], .error e)
      | none =>
        let rr := run_rounds O dg root fuel (step_indegree dg indeg leaves) st1
        (rr.1, leaves :: rr.2.1, rr.2.2)
    else (update_repo st .COMPLETED, [], .ok ())

/-- `DocumentationService._validate_repo`: empty dependencies or a falsy
root raise the 400; a repository already `IN_PROGRESS` raises the other
400. -/
def validate_repo (repo : FirestoreRepo) : Except PyErr Unit :=
  let rootFalsy :=
    match repo.root_doc with
    | none => true
    | some r => r = ""
  if repo.dependencies = [] ∨ rootFalsy = true then .error repoInvalid
  else if repo.status = some .IN_PROGRESS then .error repoInProgress
  else .ok ()

/-- `DocumentationService.generate_repo_docs_background_task`: validate
the repository, build the children graph and in-degree map, and run the
rounds.  Only the success path ever touches the repository record (it
sets `COMPLETED`); no failure path writes a repository status. -/
def generate_repo_docs_background_task (O : GenOracles)
    (repo : FirestoreRepo) (st : RepoState) :
    RepoState × List (List String) × Except PyErr Unit :=
  match validate_repo repo with
  | .error e => (st, [], .error e)
  | .ok _ =>
    match repo.root_doc with
    | none => (st, [], .error .attributeError)
    | some root =>
      run_rounds O repo.dependencies root (repo.dependencies.length + 1)
        (indegreeInit repo.dependencies) st

end RocketDocs

namespace RocketDocs

/-! ### Properties of `generate_doc` -/

/-- C3: status discipline of `generate_doc`.  Once validation has
succeeded, the first store write sets the document `IN_PROGRESS`; if the
generation body raises, the only further write is the failure record
(status `FAILED`, no extracted data, no markdown) and the same exception
is re-raised; if it succeeds, the only further write is the completed
record carrying the extracted data, the markdown content, the usage and
status `COMPLETED`. -/
theorem generate_doc_status_transitions (O : GenOracles)
    (store : DocStore) (doc_id : String) (dependencies : List String)
    (doc : FirestoreDoc) (dep_docs : List FirestoreDoc)
    (hv : validate_dependencies (get_documentation store doc_id)
      (dependencies.map (get_documentation store)) = .ok (doc, dep_docs)) :
    (∀ e, doc_generation O doc dep_docs = .error e →
      generate_doc O store doc_id dependencies =
        (update_documentation
            (update_documentation store doc_id inProgressRecord)
            doc_id failedRecord,
          [(doc_id, inProgressRecord), (doc_id, failedRecord)],
          .error e)) ∧
    (∀ g, doc_generation O doc dep_docs = .ok g →
      generate_doc O store doc_id dependencies =
        (update_documentation
            (update_documentation store doc_id inProgressRecord)
            doc_id (completedRecord g),
          [(doc_id, inProgressRecord), (doc_id, completedRecord g)],
          .ok ())) ∧
    failedRecord.status = some .FAILED ∧
    failedRecord.extracted_data = none ∧
    failedRecord.markdown_content = none ∧
    inProgressRecord.status = some .IN_PROGRESS ∧
    (∀ g : GeneratedDoc,
      (completedRecord g).status = some .COMPLETED ∧
      (completedRecord g).extracted_data = some g.extracted_data ∧
      (completedRecord g).markdown_content = some g.markdown_content ∧
      (completedRecord g).usage = g.usage) := by
  refine ⟨?_, ?_, rfl, rfl, rfl, rfl, fun g => ⟨rfl, rfl, rfl, rfl⟩⟩
  · intro e he
    unfold generate_doc
    rw [hv]
    dsimp only
    rw [he]
  · intro g hg
    unfold generate_doc
    rw [hv]
    dsimp only
    rw [hg]

/-- Concrete store for the closed instances below: a single `FILE`
document `"f"`. -/
def exampleFileStore : DocStore := fun doc_id =>
  if doc_id = "f" then
    some ({ github_url := some "u", type := some .FILE,
            status := some .NOT_STARTED } : FirestoreDoc)
  else none

/-- The document `"f"` as `generate_doc` reads it. -/
def exampleFileDoc : FirestoreDoc :=
  { id := some "f", github_url := some "u", type := some .FILE,
    status := some .NOT_STARTED }

/-- Oracles whose file generation fails with a distinguishable error. -/
def exampleFailingOracles : GenOracles :=
  ⟨fun _ => .error (.other 3), fun _ _ => .ok {}⟩

/-- Closed instance of `generate_doc_status_transitions` on the failing
path. -/
theorem generate_doc_status_transitions_witness :
    generate_doc exampleFailingOracles exampleFileStore "f" [] =
      (update_documentation
          (update_documentation exampleFileStore "f" inProgressRecord)
          "f" failedRecord,
        [("f", inProgressRecord), ("f", failedRecord)],
        .error (.other 3)) :=
  (generate_doc_status_transitions exampleFailingOracles exampleFileStore
    "f" [] exampleFileDoc [] (by decide)).1 (.other 3) rfl

end RocketDocs

namespace RocketDocs

/-! ### Failure behaviour of the scheduler -/

/-- `generate_doc` writes only the document it generates. -/
theorem generate_doc_preserves_others (O : GenOracles) (store : DocStore)
    (doc_id : String) (dependencies : List String) (k : String)
    (hk : k ≠ doc_id) :
    (generate_doc O store doc_id dependencies).1 k = store k := by
  unfold generate_doc
  cases validate_dependencies (get_documentation store doc_id)
      (dependencies.map (get_documentation store)) with
  | error e => rfl
  | ok dd =>
    obtain ⟨doc, dep_docs⟩ := dd
    dsimp only
    cases doc_generation O doc dep_docs with
    | error e => simp [update_documentation, hk]
    | ok g => simp [update_documentation, hk]

/-- A round's batch writes only the round's leaves. -/
theorem run_leaves_preserves_others (O : GenOracles)
    (dg : List (String × Option String)) :
    ∀ (ls : List String) (store : DocStore) (k : String), k ∉ ls →
      (run_leaves O dg store ls).1 k = store k := by
  intro ls
  induction ls with
  | nil => intro store k _; rfl
  | cons l ls ih =>
    intro store k hk
    have hkl : k ≠ l := fun h => hk (h ▸ List.mem_cons_self l ls)
    have hkls : k ∉ ls := fun h => hk (List.mem_cons_of_mem l h)
    simp only [run_leaves]
    rw [ih _ k hkls, generate_doc_preserves_others O store l _ k hkl]

/-- Any error outcome of the round loop leaves the repository record
status exactly as it was: no code path writes `FAILED`. -/
theorem run_rounds_error_keeps_repo_status (O : GenOracles)
    (dg : List (String × Option String)) (root : String) :
    ∀ (fuel : Nat) (indeg : List (String × Int)) (st : RepoState)
      (e : PyErr),
      (run_rounds O dg root fuel indeg st).2.2 = .error e →
      (run_rounds O dg root fuel indeg st).1.repoStatus = st.repoStatus := by
  intro fuel
  induction fuel with
  | zero =>
    intro indeg st e h
    simp only [run_rounds] at h ⊢
    by_cases hroot : root ∈ indeg.map Prod.fst
    · rw [if_pos hroot]
    · rw [if_neg hroot] at h
      exact absurd h (by simp)
  | succ fuel ih =>
    intro indeg st e h
    simp only [run_rounds] at h ⊢
    by_cases hroot : root ∈ indeg.map Prod.fst
    · rw [if_pos hroot] at h ⊢
      cases hfe : firstError (run_leaves O dg st.docs
          ((indeg.filter (fun e => e.2 = 0)).map Prod.fst)).2 with
      | some e' => rfl
      | none =>
        rw [hfe] at h
        dsimp only at h ⊢
        exact ih _ _ e h
    · rw [if_neg hroot] at h
      exact absurd h (by simp)

/-- Documents outside the executed rounds are untouched by the round
loop. -/
theorem run_rounds_docs_outside_schedule (O : GenOracles)
    (dg : List (String × Option String)) (root : String) :
    ∀ (fuel : Nat) (indeg : List (String × Int)) (st : RepoState)
      (k : String),
      k ∉ (run_rounds O dg root fuel indeg st).2.1.flatten →
      (run_rounds O dg root fuel indeg st).1.docs k = st.docs k := by
  intro fuel
  induction fuel with
  | zero =>
    intro indeg st k _
    simp only [run_rounds]
    by_cases hroot : root ∈ indeg.map Prod.fst
    · rw [if_pos hroot]
    · rw [if_neg hroot]; rfl
  | succ fuel ih =>
    intro indeg st k hk
    simp only [run_rounds] at hk ⊢
    by_cases hroot : root ∈ indeg.map Prod.fst
    · rw [if_pos hroot] at hk ⊢
      cases hfe : firstError (run_leaves O dg st.docs
          ((indeg.filter (fun e => e.2 = 0)).map Prod.fst)).2 with
      | some e' =>
        rw [hfe] at hk
        dsimp only at hk ⊢
        have hkl : k ∉ (indeg.filter (fun e => e.2 = 0)).map Prod.fst := by
          intro hmem
          exact hk (by simpa using hmem)
        exact run_leaves_preserves_others O dg _ st.docs k hkl
      | none =>
        rw [hfe] at hk
        dsimp only at hk ⊢
        rw [List.flatten] at hk
        have hkl : k ∉ (indeg.filter (fun e => e.2 = 0)).map Prod.fst :=
          fun hmem => hk (List.mem_append.mpr (Or.inl hmem))
        have hkr : k ∉ (run_rounds O dg root fuel
            (step_indegree dg indeg
              ((indeg.filter (fun e => e.2 = 0)).map Prod.fst))
            { st with docs := (run_leaves O dg st.docs
              ((indeg.filter (fun e => e.2 = 0)).map Prod.fst)).1 }).2.1.flatten :=
          fun hmem => hk (List.mem_append.mpr (Or.inr hmem))
        rw [ih _ _ k hkr]
        exact run_leaves_preserves_others O dg _ st.docs k hkl
    · rw [if_neg hroot]; rfl

/-- `firstError` surfaces the error of the earliest failed task of the
round: everything before it succeeded. -/
theorem firstError_is_first (e : PyErr) :
    ∀ rs : List (Except PyErr Unit), firstError rs = some e →
      ∃ i : Nat, rs[i]? = some (.error e) ∧
        ∀ j < i, rs[j]? = some (.ok ()) := by
  intro rs
  induction rs with
  | nil => intro h; simp [firstError] at h
  | cons r rest ih =>
    intro h
    cases r with
    | error e' =>
      simp only [firstError] at h
      cases h
      exact ⟨0, by simp, by omega⟩
    | ok u =>
      obtain ⟨i, hi, hj⟩ := ih (by simpa [firstError] using h)
      refine ⟨i + 1, by simpa using hi, ?_⟩
      intro j hj'
      cases j with
      | zero => cases u; simp
      | succ j' => simpa using hj j' (by omega)

end RocketDocs

namespace RocketDocs

/-- C2 amended: when a generation task of a round fails, the scheduler
surfaces the first error of the round (`firstError` of the ordered batch
results — third conjunct) and starts no document outside the rounds it
executed (second conjunct), but it does NOT mark the Repository record
`FAILED`: no failure path writes the repository status at all, so the
record keeps the status it had when the task started (first conjunct —
`IN_PROGRESS`, as set by `enqueue_generate_repo_docs_job`). -/
theorem scheduler_failure_keeps_repo_status (O : GenOracles)
    (repo : FirestoreRepo) (st : RepoState) (e : PyErr)
    (h : (generate_repo_docs_background_task O repo st).2.2 = .error e) :
    (generate_repo_docs_background_task O repo st).1.repoStatus =
        st.repoStatus ∧
      (∀ k, k ∉ (generate_repo_docs_background_task O repo st).2.1.flatten →
        (generate_repo_docs_background_task O repo st).1.docs k =
          st.docs k) ∧
      ∀ rs : List (Except PyErr Unit), firstError rs = some e →
        ∃ i : Nat, rs[i]? = some (.error e) ∧
          ∀ j < i, rs[j]? = some (.ok ()) := by
  refine ⟨?_, ?_, fun rs hrs => firstError_is_first e rs hrs⟩
  · unfold generate_repo_docs_background_task at h ⊢
    cases hvr : validate_repo repo with
    | error e' => rfl
    | ok u =>
      rw [hvr] at h
      dsimp only at h ⊢
      cases hrd : repo.root_doc with
      | none => rfl
      | some root =>
        rw [hrd] at h
        dsimp only at h ⊢
        exact run_rounds_error_keeps_repo_status O repo.dependencies root
          _ _ _ e h
  · unfold generate_repo_docs_background_task at h ⊢
    cases hvr : validate_repo repo with
    | error e' => intro k _; rfl
    | ok u =>
      rw [hvr] at h
      dsimp only at h ⊢
      cases hrd : repo.root_doc with
      | none => intro k _; rfl
      | some root =>
        rw [hrd] at h
        dsimp only at h ⊢
        intro k hk
        exact run_rounds_docs_outside_schedule O repo.dependencies root
          _ _ _ k hk

end RocketDocs

namespace RocketDocs

/-- A two-document repository (root directory `"r"`, file `"f"`). -/
def failRepo : FirestoreRepo :=
  { id := some "R", dependencies := [("r", none), ("f", some "r")],
    root_doc := some "r", status := some .NOT_STARTED }

/-- Its document store, with the repository record already marked
`IN_PROGRESS` by `enqueue_generate_repo_docs_job`. -/
def failState : RepoState :=
  ⟨fun doc_id =>
    if doc_id = "r" then
      some ({ type := some .DIRECTORY,
              status := some .NOT_STARTED } : FirestoreDoc)
    else if doc_id = "f" then
      some ({ type := some .FILE,
              status := some .NOT_STARTED } : FirestoreDoc)
    else none,
    some .IN_PROGRESS⟩

/-- Oracles whose file generation fails. -/
def failOracles : GenOracles :=
  ⟨fun _ => .error (.other 7), fun _ _ => .ok {}⟩

/-- C2 counterexample: the first round's only task (the file `"f"`)
fails; the run aborts re-raising that error, but the Repository record is
NOT marked `FAILED` — it still carries the `IN_PROGRESS` status it
started with. -/
theorem scheduler_failure_not_marked_failed :
    (generate_repo_docs_background_task failOracles failRepo
        failState).2.2 = .error (.other 7) ∧
      (generate_repo_docs_background_task failOracles failRepo
        failState).1.repoStatus = some .IN_PROGRESS ∧
      (generate_repo_docs_background_task failOracles failRepo
        failState).1.repoStatus ≠ some .FAILED ∧
      (generate_repo_docs_background_task failOracles failRepo
        failState).2.1 = [["f"]] := by
  decide

/-- Closed instance of `scheduler_failure_keeps_repo_status`. -/
theorem scheduler_failure_keeps_repo_status_witness :
    (generate_repo_docs_background_task failOracles failRepo
        failState).1.repoStatus = failState.repoStatus ∧
      (∀ k, k ∉ (generate_repo_docs_background_task failOracles failRepo
          failState).2.1.flatten →
        (generate_repo_docs_background_task failOracles failRepo
          failState).1.docs k = failState.docs k) ∧
      ∀ rs : List (Except PyErr Unit), firstError rs = some (.other 7) →
        ∃ i : Nat, rs[i]? = some (.error (.other 7)) ∧
          ∀ j < i, rs[j]? = some (.ok ()) :=
  scheduler_failure_keeps_repo_status failOracles failRepo failState
    (.other 7) (by decide)

end RocketDocs

namespace RocketDocs

/-! ### Topological safety of the scheduler (association-list lemmas) -/

/-- Key membership in an association list. -/
theorem mem_alist_keys {α : Type} (m : List (String × α)) (k : String) :
    k ∈ m.map Prod.fst ↔ ∃ v, (k, v) ∈ m := by
  constructor
  · intro h
    obtain ⟨e, he, hek⟩ := List.mem_map.mp h
    exact ⟨e.2, by simpa [← hek] using he⟩
  · rintro ⟨v, hv⟩
    exact List.mem_map.mpr ⟨(k, v), hv, rfl⟩

/-- `alistFind` returns an actual entry. -/
theorem alistFind_mem {α : Type} :
    ∀ (m : List (String × α)) (k : String) (v : α),
      alistFind m k = some v → (k, v) ∈ m := by
  intro m
  induction m with
  | nil => intro k v h; simp [alistFind] at h
  | cons e t ih =>
    intro k v h
    obtain ⟨k', v'⟩ := e
    simp only [alistFind] at h
    split at h
    · next hk =>
      cases h
      exact hk ▸ List.mem_cons_self _ _
    · exact List.mem_cons_of_mem _ (ih k v h)

/-- With unique keys, every entry is found. -/
theorem alistFind_of_mem {α : Type} :
    ∀ (m : List (String × α)) (k : String) (v : α),
      (m.map Prod.fst).Nodup → (k, v) ∈ m → alistFind m k = some v := by
  intro m
  induction m with
  | nil => intro k v _ h; simp at h
  | cons e t ih =>
    intro k v hnd h
    obtain ⟨k', v'⟩ := e
    simp only [List.map_cons, List.nodup_cons] at hnd
    rcases List.mem_cons.mp h with h₁ | h₁
    · cases h₁
      simp [alistFind]
    · have hkk' : k' ≠ k := by
        intro heq
        exact hnd.1 (heq ▸ (mem_alist_keys t k).mpr ⟨v, h₁⟩)
      simp only [alistFind, if_neg hkk']
      exact ih k v hnd.2 h₁

/-- Absent keys are not found. -/
theorem alistFind_eq_none {α : Type} :
    ∀ (m : List (String × α)) (k : String),
      k ∉ m.map Prod.fst → alistFind m k = none := by
  intro m
  induction m with
  | nil => intro k _; rfl
  | cons e t ih =>
    intro k hk
    obtain ⟨k', v'⟩ := e
    simp only [List.map_cons, List.mem_cons] at hk
    push_neg at hk
    simp only [alistFind]
    rw [if_neg (fun h => hk.1 h.symm)]
    exact ih k hk.2

/-- `alistSet` does not touch entries with another key. -/
theorem mem_alistSet_ne {α : Type} :
    ∀ (m : List (String × α)) (k : String) (v : α) (k' : String) (v' : α),
      k' ≠ k → ((k', v') ∈ alistSet m k v ↔ (k', v') ∈ m) := by
  intro m
  induction m with
  | nil =>
    intro k v k' v' hne
    simp [alistSet, hne]
  | cons e t ih =>
    intro k v k' v' hne
    obtain ⟨k₀, v₀⟩ := e
    simp only [alistSet]
    split
    · next hk₀ =>
      subst hk₀
      constructor
      · intro h
        rcases List.mem_cons.mp h with h₁ | h₁
        · exact absurd (congrArg Prod.fst h₁) hne
        · exact List.mem_cons_of_mem _ h₁
      · intro h
        rcases List.mem_cons.mp h with h₁ | h₁
        · exact absurd (congrArg Prod.fst h₁) hne
        · exact List.mem_cons_of_mem _ h₁
    · simp only [List.mem_cons]
      rw [ih k v k' v' hne]

/-- With unique keys and the key present, the updated binding is the only
entry at that key. -/
theorem mem_alistSet_self {α : Type} :
    ∀ (m : List (String × α)) (k : String) (v : α) (v' : α),
      (m.map Prod.fst).Nodup → k ∈ m.map Prod.fst →
      ((k, v') ∈ alistSet m k v ↔ v' = v) := by
  intro m
  induction m with
  | nil => intro k v v' _ hk; simp at hk
  | cons e t ih =>
    intro k v v' hnd hk
    obtain ⟨k₀, v₀⟩ := e
    simp only [List.map_cons, List.nodup_cons] at hnd
    simp only [alistSet]
    split
    · next hk₀ =>
      subst hk₀
      constructor
      · intro h
        rcases List.mem_cons.mp h with h₁ | h₁
        · exact (Prod.mk.injEq _ _ _ _ ▸ h₁).2
        · exact absurd ((mem_alist_keys t k₀).mpr ⟨v', h₁⟩) hnd.1
      · intro h
        subst h
        exact List.mem_cons_self _ _
    · next hk₀ =>
      have hk' : k ∈ t.map Prod.fst := by
        have hk2 : k = k₀ ∨ ∃ x, (k, x) ∈ t := by simpa using hk
        rcases hk2 with h₁ | ⟨x, hx⟩
        · exact absurd h₁.symm hk₀
        · exact (mem_alist_keys t k).mpr ⟨x, hx⟩
      constructor
      · intro h
        rcases List.mem_cons.mp h with h₁ | h₁
        · exact absurd (congrArg Prod.fst h₁).symm hk₀
        · exact (ih k v v' hnd.2 hk').mp h₁
      · intro h
        exact List.mem_cons_of_mem _ ((ih k v v' hnd.2 hk').mpr h)

/-- With the key present, `alistSet` keeps the key list unchanged. -/
theorem alistSet_keys {α : Type} :
    ∀ (m : List (String × α)) (k : String) (v : α),
      k ∈ m.map Prod.fst →
      (alistSet m k v).map Prod.fst = m.map Prod.fst := by
  intro m
  induction m with
  | nil => intro k v hk; simp at hk
  | cons e t ih =>
    intro k v hk
    obtain ⟨k₀, v₀⟩ := e
    simp only [alistSet]
    split
    · next hk₀ => subst hk₀; rfl
    · next hk₀ =>
      have hk' : k ∈ t.map Prod.fst := by
        have hk2 : k = k₀ ∨ ∃ x, (k, x) ∈ t := by simpa using hk
        rcases hk2 with h₁ | ⟨x, hx⟩
        · exact absurd h₁.symm hk₀
        · exact (mem_alist_keys t k).mpr ⟨x, hx⟩
      simp only [List.map_cons, ih k v hk']

/-- Entries of `alistPop`. -/
theorem mem_alistPop {α : Type} (m : List (String × α)) (k : String)
    (k' : String) (v' : α) :
    (k', v') ∈ alistPop m k ↔ (k', v') ∈ m ∧ k' ≠ k := by
  simp [alistPop, List.mem_filter]

/-- The keys of `alistPop` form a sublist of the original keys. -/
theorem alistPop_keys_sublist {α : Type} (m : List (String × α))
    (k : String) :
    ((alistPop m k).map Prod.fst).Sublist (m.map Prod.fst) :=
  (List.filter_sublist m).map Prod.fst

end RocketDocs

namespace RocketDocs

/-- Membership in a children list. -/
theorem mem_childrenOf (dg : List (String × Option String))
    (c p : String) :
    c ∈ childrenOf dg p ↔ (c, some p) ∈ dg ∧ p ≠ "" := by
  unfold childrenOf
  constructor
  · intro h
    obtain ⟨cp, hcp, hcpc⟩ := List.mem_map.mp h
    have hf := List.mem_filter.mp hcp
    have hc2 : cp.2 = some p ∧ p ≠ "" := by simpa using hf.2
    refine ⟨?_, hc2.2⟩
    have hcpeq : cp = (c, some p) := by
      obtain ⟨c₁, p₁⟩ := cp
      simp only [Prod.mk.injEq]
      exact ⟨hcpc, hc2.1⟩
    exact hcpeq ▸ hf.1
  · rintro ⟨hmem, hpne⟩
    refine List.mem_map.mpr ⟨(c, some p), List.mem_filter.mpr ⟨hmem, ?_⟩, rfl⟩
    simpa using hpne

/-- With unique child keys, children lists have no duplicates. -/
theorem childrenOf_nodup (dg : List (String × Option String))
    (hkeys : (dg.map Prod.fst).Nodup) (p : String) :
    (childrenOf dg p).Nodup := by
  unfold childrenOf
  exact hkeys.sublist ((List.filter_sublist dg).map Prod.fst)

/-- With unique child keys, each child has a unique parent value. -/
theorem parent_unique (dg : List (String × Option String))
    (hkeys : (dg.map Prod.fst).Nodup) (c : String)
    (v₁ v₂ : Option String) (h₁ : (c, v₁) ∈ dg) (h₂ : (c, v₂) ∈ dg) :
    v₁ = v₂ := by
  have e₁ := alistFind_of_mem dg c v₁ hkeys h₁
  have e₂ := alistFind_of_mem dg c v₂ hkeys h₂
  rw [e₁] at e₂
  exact Option.some.inj e₂

/-- Scheduling invariant of the round loop: the in-degree map has unique
keys; its keys are exactly the not-yet-scheduled nodes; every entry holds
the number of its not-yet-scheduled children; and the scheduled set is
closed under children. -/
structure SchedInv (dg : List (String × Option String))
    (sched : List String) (indeg : List (String × Int)) : Prop where
  nodupKeys : (indeg.map Prod.fst).Nodup
  keysIff : ∀ k, k ∈ indeg.map Prod.fst ↔ k ∈ dg.map Prod.fst ∧ k ∉ sched
  counts : ∀ kv ∈ indeg,
    kv.2 = (((childrenOf dg kv.1).filter (fun c => c ∉ sched)).length : Int)
  closed : ∀ v ∈ sched, ∀ c ∈ childrenOf dg v, c ∈ sched

/-- A zero count means every child is already scheduled. -/
theorem children_scheduled_of_count_zero
    (dg : List (String × Option String)) (sched : List String) (v : String)
    (h : (0 : Int) =
      (((childrenOf dg v).filter (fun c => c ∉ sched)).length : Int)) :
    ∀ c ∈ childrenOf dg v, c ∈ sched := by
  intro c hc
  have hlen : ((childrenOf dg v).filter (fun c => c ∉ sched)).length = 0 := by
    omega
  have hnil := List.length_eq_zero.mp hlen
  by_contra hcs
  have : c ∈ (childrenOf dg v).filter (fun c => c ∉ sched) :=
    List.mem_filter.mpr ⟨hc, by simpa using hcs⟩
  rw [hnil] at this
  simp at this

/-- Removing a freshly scheduled node from the pending set drops the
pending-children count of exactly its parent by one. -/
theorem filter_length_drop_one (cs : List String) (hnd : cs.Nodup)
    (sched : List String) (l : String) (hlcs : l ∈ cs) (hls : l ∉ sched) :
    ((cs.filter (fun c => c ∉ sched ++ [l])).length : Int) =
      ((cs.filter (fun c => c ∉ sched)).length : Int) - 1 := by
  have hsplit : cs.filter (fun c => c ∉ sched ++ [l]) =
      (cs.filter (fun c => c ∉ sched)).filter (fun c => c ≠ l) := by
    rw [List.filter_filter]
    refine List.filter_congr ?_
    intro c _
    simp [List.mem_append, not_or, and_comm]
  have hmemL : l ∈ cs.filter (fun c => c ∉ sched) :=
    List.mem_filter.mpr ⟨hlcs, by simpa using hls⟩
  have hndL : (cs.filter (fun c => c ∉ sched)).Nodup := hnd.filter _
  have herase : (cs.filter (fun c => c ∉ sched)).filter (fun c => c ≠ l) =
      (cs.filter (fun c => c ∉ sched)).erase l := by
    rw [hndL.erase_eq_filter l]
    refine List.filter_congr ?_
    intro c _
    by_cases hcl : c = l <;> simp [hcl]
  have hlen := List.length_erase_of_mem hmemL
  have hpos : 0 < (cs.filter (fun c => c ∉ sched)).length :=
    List.length_pos.mpr (List.ne_nil_of_mem hmemL)
  rw [hsplit, herase, hlen]
  omega

end RocketDocs

namespace RocketDocs

/-- Generic step: popping a finished leaf `l` from a map whose entries
already hold the updated pending-children counts preserves the
invariant. -/
theorem schedInv_pop (dg : List (String × Option String))
    (sched : List String) (indeg : List (String × Int)) (l : String)
    (hinv : SchedInv dg sched indeg) (hl : (l, (0 : Int)) ∈ indeg)
    (indeg1 : List (String × Int))
    (hkeys1 : indeg1.map Prod.fst = indeg.map Prod.fst)
    (hcnt1 : ∀ kv ∈ indeg1, kv.2 =
      (((childrenOf dg kv.1).filter
        (fun c => c ∉ sched ++ [l])).length : Int)) :
    SchedInv dg (sched ++ [l]) (alistPop indeg1 l) := by
  have hlKeys : l ∈ indeg.map Prod.fst := (mem_alist_keys _ _).mpr ⟨0, hl⟩
  have hlDg := (hinv.keysIff l).mp hlKeys
  have hlChildren : ∀ c ∈ childrenOf dg l, c ∈ sched :=
    children_scheduled_of_count_zero dg sched l (hinv.counts (l, 0) hl)
  refine ⟨?_, ?_, ?_, ?_⟩
  · exact (hkeys1 ▸ hinv.nodupKeys).sublist (alistPop_keys_sublist indeg1 l)
  · intro k
    constructor
    · intro hk
      obtain ⟨v, hv⟩ := (mem_alist_keys _ _).mp hk
      have hv' := (mem_alistPop indeg1 l k v).mp hv
      have hkKeys : k ∈ indeg.map Prod.fst := by
        rw [← hkeys1]
        exact (mem_alist_keys _ _).mpr ⟨v, hv'.1⟩
      have := (hinv.keysIff k).mp hkKeys
      refine ⟨this.1, ?_⟩
      simp only [List.mem_append, List.mem_singleton]
      rintro (hks | hkl)
      · exact this.2 hks
      · exact hv'.2 hkl
    · rintro ⟨hkdg, hks⟩
      simp only [List.mem_append, List.mem_singleton] at hks
      push_neg at hks
      have hkKeys : k ∈ indeg.map Prod.fst :=
        (hinv.keysIff k).mpr ⟨hkdg, hks.1⟩
      rw [← hkeys1] at hkKeys
      obtain ⟨v, hv⟩ := (mem_alist_keys _ _).mp hkKeys
      exact (mem_alist_keys _ _).mpr
        ⟨v, (mem_alistPop indeg1 l k v).mpr ⟨hv, hks.2⟩⟩
  · intro kv hkv
    exact hcnt1 kv ((mem_alistPop indeg1 l kv.1 kv.2).mp
      (by simpa using hkv)).1
  · intro v hv c hc
    simp only [List.mem_append, List.mem_singleton] at hv ⊢
    rcases hv with hv | hv
    · exact Or.inl (hinv.closed v hv c hc)
    · subst hv
      exact Or.inl (hlChildren c hc)

/-- One bookkeeping step of the scheduler (`indegree[parent] -= 1` for a
truthy parent, then `indegree.pop(leaf)`) preserves the invariant. -/
theorem schedInv_step_one (dg : List (String × Option String))
    (hkeysDg : (dg.map Prod.fst).Nodup)
    (hparents : ∀ cp ∈ dg, ∀ p, cp.2 = some p → p ≠ "" →
      p ∈ dg.map Prod.fst)
    (sched : List String) (indeg : List (String × Int)) (l : String)
    (hinv : SchedInv dg sched indeg)
    (hl : (l, (0 : Int)) ∈ indeg) :
    SchedInv dg (sched ++ [l])
      (alistPop
        (match alistFind dg l with
          | some (some p) =>
            if p ≠ "" then alistBump indeg p (-1) else indeg
          | _ => indeg) l) := by
  have hlKeys : l ∈ indeg.map Prod.fst := (mem_alist_keys _ _).mpr ⟨0, hl⟩
  have hlDg := (hinv.keysIff l).mp hlKeys
  -- counts are unchanged for nodes that do not have `l` among their
  -- children
  have hsame : ∀ k, l ∉ childrenOf dg k →
      ((childrenOf dg k).filter (fun c => c ∉ sched ++ [l])) =
        ((childrenOf dg k).filter (fun c => c ∉ sched)) := by
    intro k hk
    refine List.filter_congr ?_
    intro c hc
    have hcl : c ≠ l := fun h => hk (h ▸ hc)
    simp [List.mem_append, hcl]
  cases hfind : alistFind dg l with
  | none =>
    have hnotchild : ∀ k, l ∉ childrenOf dg k := by
      intro k hk
      obtain ⟨hmem, -⟩ := (mem_childrenOf dg l k).mp hk
      rw [alistFind_of_mem dg l (some k) hkeysDg hmem] at hfind
      cases hfind
    refine schedInv_pop dg sched indeg l hinv hl indeg rfl ?_
    intro kv hkv
    rw [hsame kv.1 (hnotchild kv.1)]
    exact hinv.counts kv hkv
  | some po =>
    cases po with
    | none =>
      have hnotchild : ∀ k, l ∉ childrenOf dg k := by
        intro k hk
        obtain ⟨hmem, -⟩ := (mem_childrenOf dg l k).mp hk
        rw [alistFind_of_mem dg l (some k) hkeysDg hmem] at hfind
        cases hfind
      refine schedInv_pop dg sched indeg l hinv hl indeg rfl ?_
      intro kv hkv
      rw [hsame kv.1 (hnotchild kv.1)]
      exact hinv.counts kv hkv
    | some p =>
      by_cases hp : p ≠ ""
      · dsimp only
        rw [if_pos hp]
        have hlp : (l, some p) ∈ dg := alistFind_mem dg l (some p) hfind
        have hlchildp : l ∈ childrenOf dg p :=
          (mem_childrenOf dg l p).mpr ⟨hlp, hp⟩
        have hpDg : p ∈ dg.map Prod.fst := hparents (l, some p) hlp p rfl hp
        have hpSched : p ∉ sched := by
          intro hps
          exact hlDg.2 (hinv.closed p hps l hlchildp)
        have hpKeys : p ∈ indeg.map Prod.fst :=
          (hinv.keysIff p).mpr ⟨hpDg, hpSched⟩
        obtain ⟨vp, hvp⟩ := (mem_alist_keys _ _).mp hpKeys
        have hfindp : alistFind indeg p = some vp :=
          alistFind_of_mem indeg p vp hinv.nodupKeys hvp
        have hbump : alistBump indeg p (-1) = alistSet indeg p (vp + (-1)) := by
          unfold alistBump
          rw [hfindp]
        rw [hbump]
        refine schedInv_pop dg sched indeg l hinv hl _
          (alistSet_keys indeg p _ hpKeys) ?_
        intro kv hkv
        obtain ⟨k, v⟩ := kv
        by_cases hkp : k = p
        · subst hkp
          have hveq : v = vp + (-1) :=
            (mem_alistSet_self indeg k _ v hinv.nodupKeys hpKeys).mp hkv
          have hvpc := hinv.counts (k, vp) hvp
          simp only at hvpc ⊢
          rw [hveq, hvpc]
          have := filter_length_drop_one (childrenOf dg k)
            (childrenOf_nodup dg hkeysDg k) sched l hlchildp hlDg.2
          omega
        · have hkv' : (k, v) ∈ indeg :=
            (mem_alistSet_ne indeg p _ k v hkp).mp hkv
          have hnotchild : l ∉ childrenOf dg k := by
            intro hk
            obtain ⟨hmem, -⟩ := (mem_childrenOf dg l k).mp hk
            exact hkp (Option.some.inj
              (parent_unique dg hkeysDg l (some k) (some p) hmem hlp))
          simp only at hnotchild ⊢
          rw [hsame k hnotchild]
          exact hinv.counts (k, v) hkv'
      · dsimp only
        rw [if_neg hp]
        push_neg at hp
        have hnotchild : ∀ k, l ∉ childrenOf dg k := by
          intro k hk
          obtain ⟨hmem, hkne⟩ := (mem_childrenOf dg l k).mp hk
          rw [alistFind_of_mem dg l (some k) hkeysDg hmem] at hfind
          have : k = p := by
            have := Option.some.inj hfind
            exact Option.some.inj this
          subst this
          subst hp
          exact hkne rfl
        refine schedInv_pop dg sched indeg l hinv hl indeg rfl ?_
        intro kv hkv
        rw [hsame kv.1 (hnotchild kv.1)]
        exact hinv.counts kv hkv

end RocketDocs

namespace RocketDocs

/-- With unique keys an association list binds each key to one value. -/
theorem alist_value_unique {α : Type} (m : List (String × α))
    (hkeys : (m.map Prod.fst).Nodup) (k : String) (v₁ v₂ : α)
    (h₁ : (k, v₁) ∈ m) (h₂ : (k, v₂) ∈ m) : v₁ = v₂ := by
  have e₁ := alistFind_of_mem m k v₁ hkeys h₁
  have e₂ := alistFind_of_mem m k v₂ hkeys h₂
  rw [e₁] at e₂
  exact Option.some.inj e₂

/-- A still-pending leaf entry (degree `0`) survives the bookkeeping step
for another leaf. -/
theorem zero_entry_preserved (dg : List (String × Option String))
    (_hkeysDg : (dg.map Prod.fst).Nodup)
    (hparents : ∀ cp ∈ dg, ∀ p, cp.2 = some p → p ≠ "" →
      p ∈ dg.map Prod.fst)
    (sched : List String) (indeg : List (String × Int)) (l : String)
    (hinv : SchedInv dg sched indeg)
    (hl : (l, (0 : Int)) ∈ indeg) (l' : String)
    (hne : l' ≠ l) (hl' : (l', (0 : Int)) ∈ indeg) :
    (l', (0 : Int)) ∈ alistPop
      (match alistFind dg l with
        | some (some p) =>
          if p ≠ "" then alistBump indeg p (-1) else indeg
        | _ => indeg) l := by
  have hlKeys : l ∈ indeg.map Prod.fst := (mem_alist_keys _ _).mpr ⟨0, hl⟩
  have hlDg := (hinv.keysIff l).mp hlKeys
  refine (mem_alistPop _ l l' 0).mpr ⟨?_, hne⟩
  cases hfind : alistFind dg l with
  | none => exact hl'
  | some po =>
    cases po with
    | none => exact hl'
    | some p =>
      by_cases hp : p ≠ ""
      · dsimp only
        rw [if_pos hp]
        have hlp : (l, some p) ∈ dg := alistFind_mem dg l (some p) hfind
        have hlchildp : l ∈ childrenOf dg p :=
          (mem_childrenOf dg l p).mpr ⟨hlp, hp⟩
        have hpDg : p ∈ dg.map Prod.fst := hparents (l, some p) hlp p rfl hp
        have hpSched : p ∉ sched := by
          intro hps
          exact hlDg.2 (hinv.closed p hps l hlchildp)
        have hpKeys : p ∈ indeg.map Prod.fst :=
          (hinv.keysIff p).mpr ⟨hpDg, hpSched⟩
        obtain ⟨vp, hvp⟩ := (mem_alist_keys _ _).mp hpKeys
        have hfindp : alistFind indeg p = some vp :=
          alistFind_of_mem indeg p vp hinv.nodupKeys hvp
        have hvppos : 1 ≤ vp := by
          have hcnt := hinv.counts (p, vp) hvp
          have hmem : l ∈ (childrenOf dg p).filter
              (fun c => c ∉ sched) :=
            List.mem_filter.mpr ⟨hlchildp, by simpa using hlDg.2⟩
          have hpos : 0 < ((childrenOf dg p).filter
              (fun c => c ∉ sched)).length :=
            List.length_pos.mpr (List.ne_nil_of_mem hmem)
          simp only at hcnt
          omega
        have hl'p : l' ≠ p := by
          intro heq
          subst heq
          have := alist_value_unique indeg hinv.nodupKeys l' 0 vp hl' hvp
          omega
        unfold alistBump
        rw [hfindp]
        exact (mem_alistSet_ne indeg p _ l' 0 hl'p).mpr hl'
      · dsimp only
        rw [if_neg hp]
        exact hl'

/-- The bookkeeping for a whole round of pairwise distinct degree-zero
leaves preserves the invariant. -/
theorem schedInv_steps (dg : List (String × Option String))
    (hkeysDg : (dg.map Prod.fst).Nodup)
    (hparents : ∀ cp ∈ dg, ∀ p, cp.2 = some p → p ≠ "" →
      p ∈ dg.map Prod.fst) :
    ∀ (ls : List String) (sched : List String)
      (indeg : List (String × Int)),
      SchedInv dg sched indeg →
      (∀ l ∈ ls, (l, (0 : Int)) ∈ indeg) →
      ls.Nodup →
      SchedInv dg (sched ++ ls) (step_indegree dg indeg ls) := by
  intro ls
  induction ls with
  | nil =>
    intro sched indeg hinv _ _
    simpa [step_indegree] using hinv
  | cons l ls ih =>
    intro sched indeg hinv hls hnd
    have hl := hls l (List.mem_cons_self l ls)
    have hinv1 := schedInv_step_one dg hkeysDg hparents sched indeg l hinv hl
    simp only [step_indegree]
    rw [List.append_cons]
    refine ih (sched ++ [l]) _ hinv1 ?_ (List.Nodup.of_cons hnd)
    intro l' hl'
    have hne : l' ≠ l := by
      intro heq
      subst heq
      exact (List.nodup_cons.mp hnd).1 hl'
    exact zero_entry_preserved dg hkeysDg hparents sched indeg l hinv hl
      l' hne (hls l' (List.mem_cons_of_mem l hl'))

/-- The declarative meaning of a schedule: each round only contains
nodes all of whose children were scheduled in strictly earlier rounds. -/
def GoodRounds (dg : List (String × Option String)) :
    List String → List (List String) → Prop
  | _, [] => True
  | sched, r :: rs =>
    (∀ v ∈ r, ∀ c ∈ childrenOf dg v, c ∈ sched) ∧
      GoodRounds dg (sched ++ r) rs

/-- The round loop only ever schedules nodes whose in-degree has reached
`0`, which under the invariant means nodes all of whose children were
scheduled in earlier rounds. -/
theorem run_rounds_goodRounds (O : GenOracles)
    (dg : List (String × Option String)) (root : String)
    (hkeysDg : (dg.map Prod.fst).Nodup)
    (hparents : ∀ cp ∈ dg, ∀ p, cp.2 = some p → p ≠ "" →
      p ∈ dg.map Prod.fst) :
    ∀ (fuel : Nat) (indeg : List (String × Int)) (st : RepoState)
      (sched : List String),
      SchedInv dg sched indeg →
      GoodRounds dg sched (run_rounds O dg root fuel indeg st).2.1 := by
  have hleafmem : ∀ (indeg : List (String × Int)) (l : String),
      l ∈ (indeg.filter (fun e => e.2 = 0)).map Prod.fst →
      (l, (0 : Int)) ∈ indeg := by
    intro indeg l hml
    obtain ⟨e, he, hel⟩ := List.mem_map.mp hml
    have hf := List.mem_filter.mp he
    have he0 : e.2 = 0 := by simpa using hf.2
    have : e = (l, (0 : Int)) := by
      obtain ⟨k, v⟩ := e
      simp only at hel he0
      simp [hel, he0]
    exact this ▸ hf.1
  have hgood : ∀ (indeg : List (String × Int)) (sched : List String),
      SchedInv dg sched indeg →
      ∀ v ∈ (indeg.filter (fun e => e.2 = 0)).map Prod.fst,
        ∀ c ∈ childrenOf dg v, c ∈ sched := by
    intro indeg sched hinv v hv
    exact children_scheduled_of_count_zero dg sched v
      (hinv.counts (v, 0) (hleafmem indeg v hv))
  intro fuel
  induction fuel with
  | zero =>
    intro indeg st sched hinv
    simp only [run_rounds]
    split <;> exact trivial
  | succ fuel ih =>
    intro indeg st sched hinv
    simp only [run_rounds]
    by_cases hroot : root ∈ indeg.map Prod.fst
    · rw [if_pos hroot]
      cases hfe : firstError (run_leaves O dg st.docs
          ((indeg.filter (fun e => e.2 = 0)).map Prod.fst)).2 with
      | some e =>
        refine ⟨hgood indeg sched hinv, trivial⟩
      | none =>
        refine ⟨hgood indeg sched hinv, ?_⟩
        refine ih _ _ _ ?_
        refine schedInv_steps dg hkeysDg hparents _ sched indeg hinv
          (hleafmem indeg) ?_
        exact hinv.nodupKeys.sublist
          ((List.filter_sublist indeg).map Prod.fst)
    · rw [if_neg hroot]
      exact trivial

end RocketDocs

namespace RocketDocs

/-- `alistFind` after `alistSet`. -/
theorem alistFind_alistSet {α : Type} :
    ∀ (m : List (String × α)) (k : String) (v : α) (k' : String),
      alistFind (alistSet m k v) k' =
        if k = k' then some v else alistFind m k' := by
  intro m
  induction m with
  | nil =>
    intro k v k'
    simp only [alistSet, alistFind]
  | cons e t ih =>
    intro k v k'
    obtain ⟨k₀, v₀⟩ := e
    simp only [alistSet]
    by_cases h0 : k₀ = k
    · rw [if_pos h0]
      subst h0
      simp only [alistFind]
      by_cases h1 : k₀ = k'
      · rw [if_pos h1, if_pos h1]
      · rw [if_neg h1, if_neg h1, if_neg h1]
    · rw [if_neg h0]
      simp only [alistFind]
      rw [ih k v k']
      by_cases h1 : k₀ = k' <;> by_cases h2 : k = k'
      · exact absurd (h1.trans h2.symm) h0
      · rw [if_pos h1, if_neg h2, if_pos h1]
      · rw [if_neg h1, if_pos h2, if_pos h2]
      · rw [if_neg h1, if_neg h2, if_neg h2, if_neg h1]

/-- Looking up the all-zeroes initial map. -/
theorem alistFind_zero_init :
    ∀ (dg : List (String × Option String)) (k : String),
      alistFind (dg.map (fun cp => (cp.1, (0 : Int)))) k =
        (alistFind dg k).map (fun _ => (0 : Int)) := by
  intro dg
  induction dg with
  | nil => intro k; rfl
  | cons e t ih =>
    intro k
    obtain ⟨k₀, p₀⟩ := e
    simp only [List.map_cons, alistFind]
    by_cases h : k₀ = k
    · rw [if_pos h, if_pos h]
      rfl
    · rw [if_neg h, if_neg h]
      exact ih k

/-- What the in-degree construction fold computes: the key list is kept,
and every binding grows by the number of remaining children with that
truthy parent. -/
theorem indegree_fold_spec :
    ∀ (todo : List (String × Option String)) (m : List (String × Int)),
      (m.map Prod.fst).Nodup →
      (∀ cp ∈ todo, ∀ p : String, cp.2 = some p → p ≠ "" →
        p ∈ m.map Prod.fst) →
      (todo.foldl indegreeInitStep m).map Prod.fst = m.map Prod.fst ∧
      ∀ k, alistFind (todo.foldl indegreeInitStep m) k =
        (alistFind m k).map
          (fun v => v +
            (((todo.filter
              (fun cp => cp.2 = some k ∧ k ≠ "")).length : Int))) := by
  intro todo
  induction todo with
  | nil =>
    intro m hnd _
    refine ⟨rfl, ?_⟩
    intro k
    simp only [List.foldl_nil, List.filter_nil, List.length_nil]
    cases alistFind m k <;> simp
  | cons cp todo ih =>
    intro m hnd hpar
    obtain ⟨c, po⟩ := cp
    simp only [List.foldl_cons]
    cases po with
    | none =>
      simp only [indegreeInitStep]
      obtain ⟨hk, hf⟩ :=
        ih m hnd (fun cp' h => hpar cp' (List.mem_cons_of_mem _ h))
      refine ⟨hk, ?_⟩
      intro k
      rw [hf k]
      have hfe : ((c, (none : Option String)) :: todo).filter
          (fun cp => cp.2 = some k ∧ k ≠ "") =
          todo.filter (fun cp => cp.2 = some k ∧ k ≠ "") := by
        simp [List.filter_cons]
      rw [hfe]
    | some p =>
      by_cases hp : p ≠ ""
      · simp only [indegreeInitStep]
        rw [if_pos hp]
        have hpm : p ∈ m.map Prod.fst :=
          hpar (c, some p) (List.mem_cons_self _ _) p rfl hp
        obtain ⟨vp, hvp⟩ := (mem_alist_keys _ _).mp hpm
        have hfp : alistFind m p = some vp :=
          alistFind_of_mem m p vp hnd hvp
        have hbump : alistBump m p 1 = alistSet m p (vp + 1) := by
          unfold alistBump
          rw [hfp]
        rw [hbump]
        have hkeys1 : (alistSet m p (vp + 1)).map Prod.fst =
            m.map Prod.fst := alistSet_keys m p (vp + 1) hpm
        have hnd1 : ((alistSet m p (vp + 1)).map Prod.fst).Nodup := by
          rw [hkeys1]
          exact hnd
        have hpar1 : ∀ cp' ∈ todo, ∀ q : String, cp'.2 = some q →
            q ≠ "" → q ∈ (alistSet m p (vp + 1)).map Prod.fst := by
          intro cp' h q hq hqne
          rw [hkeys1]
          exact hpar cp' (List.mem_cons_of_mem _ h) q hq hqne
        obtain ⟨hk, hf⟩ := ih (alistSet m p (vp + 1)) hnd1 hpar1
        refine ⟨hk.trans hkeys1, ?_⟩
        intro k
        rw [hf k, alistFind_alistSet]
        by_cases hpk : p = k
        · subst hpk
          rw [if_pos rfl, hfp]
          have hfe : ((c, some p) :: todo).filter
              (fun cp => cp.2 = some p ∧ p ≠ "") =
              (c, some p) :: todo.filter
                (fun cp => cp.2 = some p ∧ p ≠ "") := by
            simp [List.filter_cons, hp]
          rw [hfe]
          simp only [Option.map_some', List.length_cons, Option.some.injEq]
          push_cast
          ring
        · rw [if_neg hpk]
          have hfe : ((c, some p) :: todo).filter
              (fun cp => cp.2 = some k ∧ k ≠ "") =
              todo.filter (fun cp => cp.2 = some k ∧ k ≠ "") := by
            simp [List.filter_cons, hpk]
          rw [hfe]
      · simp only [indegreeInitStep]
        rw [if_neg hp]
        obtain ⟨hk, hf⟩ :=
          ih m hnd (fun cp' h => hpar cp' (List.mem_cons_of_mem _ h))
        refine ⟨hk, ?_⟩
        intro k
        rw [hf k]
        push_neg at hp
        subst hp
        have hcond : ¬ (((c, some "").2 = some k) ∧ k ≠ "") := by
          rintro ⟨h1, h2⟩
          simp only at h1
          exact h2 (Option.some.inj h1).symm
        have hfe : ((c, some "") :: todo).filter
            (fun cp => cp.2 = some k ∧ k ≠ "") =
            todo.filter (fun cp => cp.2 = some k ∧ k ≠ "") := by
          simp [List.filter_cons, hcond]
          exact fun h => h.symm
        rw [hfe]

/-- The initial in-degree map satisfies the scheduling invariant with an
empty scheduled set. -/
theorem schedInv_init (dg : List (String × Option String))
    (hkeysDg : (dg.map Prod.fst).Nodup)
    (hparents : ∀ cp ∈ dg, ∀ p, cp.2 = some p → p ≠ "" →
      p ∈ dg.map Prod.fst) :
    SchedInv dg [] (indegreeInit dg) := by
  have hkeys0 : (dg.map (fun cp => (cp.1, (0 : Int)))).map Prod.fst =
      dg.map Prod.fst := by
    rw [List.map_map]
    exact List.map_congr_left (fun a _ => rfl)
  have hnd0 : ((dg.map (fun cp => (cp.1, (0 : Int)))).map Prod.fst).Nodup := by
    rw [hkeys0]
    exact hkeysDg
  have hpar0 : ∀ cp ∈ dg, ∀ p : String, cp.2 = some p → p ≠ "" →
      p ∈ (dg.map (fun cp => (cp.1, (0 : Int)))).map Prod.fst := by
    intro cp h p hp hpne
    rw [hkeys0]
    exact hparents cp h p hp hpne
  obtain ⟨hk, hf⟩ :=
    indegree_fold_spec dg (dg.map (fun cp => (cp.1, (0 : Int)))) hnd0 hpar0
  have hkeysInit : (indegreeInit dg).map Prod.fst = dg.map Prod.fst := by
    unfold indegreeInit
    rw [hk, hkeys0]
  refine ⟨?_, ?_, ?_, ?_⟩
  · rw [hkeysInit]
    exact hkeysDg
  · intro k
    rw [hkeysInit]
    simp
  · intro kv hkv
    obtain ⟨k, v⟩ := kv
    have hndInit : ((indegreeInit dg).map Prod.fst).Nodup := by
      rw [hkeysInit]
      exact hkeysDg
    have hfind : alistFind (indegreeInit dg) k = some v :=
      alistFind_of_mem _ k v hndInit hkv
    unfold indegreeInit at hfind
    rw [hf k, alistFind_zero_init] at hfind
    have hkdg : k ∈ dg.map Prod.fst := by
      rw [← hkeysInit]
      exact (mem_alist_keys _ _).mpr ⟨v, hkv⟩
    obtain ⟨pv, hpv⟩ := (mem_alist_keys _ _).mp hkdg
    rw [alistFind_of_mem dg k pv hkeysDg hpv] at hfind
    simp only [Option.map_some', Option.some.injEq] at hfind
    have hfull : (childrenOf dg k).filter
        (fun c => c ∉ ([] : List String)) = childrenOf dg k :=
      List.filter_eq_self.mpr (fun a _ => by simp)
    dsimp only
    rw [hfull]
    have hlen : (childrenOf dg k).length =
        (dg.filter (fun cp => cp.2 = some k ∧ k ≠ "")).length := by
      unfold childrenOf
      rw [List.length_map]
    omega
  · intro v hv
    exact absurd hv (List.not_mem_nil v)

end RocketDocs

namespace RocketDocs

/-- When every dependency document is present and some dependency's
status is not `COMPLETED`, the dependency loop raises the 400. -/
theorem validateDepsLoop_not_completed :
    ∀ (ds : List (Option FirestoreDoc)),
      (∀ x ∈ ds, x ≠ none) →
      (∃ x ∈ ds, ∃ d, x = some d ∧
        d.status ≠ some StatusEnum.COMPLETED) →
      validateDepsLoop ds = .error dependenciesNotCompleted := by
  intro ds
  induction ds with
  | nil =>
    rintro _ ⟨x, hx, _⟩
    exact absurd hx (List.not_mem_nil x)
  | cons x rest ih =>
    rintro hall ⟨y, hy, d, hyd, hds⟩
    cases x with
    | none => exact absurd rfl (hall none (List.mem_cons_self _ _))
    | some d₀ =>
      simp only [validateDepsLoop]
      by_cases hst : d₀.status ≠ some StatusEnum.COMPLETED
      · rw [if_pos hst]
      · rw [if_neg hst]
        push_neg at hst
        have hrest : validateDepsLoop rest =
            .error dependenciesNotCompleted := by
          apply ih (fun z hz => hall z (List.mem_cons_of_mem _ hz))
          rcases List.mem_cons.mp hy with h | h
          · subst h
            exact absurd ((Option.some.inj hyd) ▸ hst) hds
          · exact ⟨y, h, d, hyd, hds⟩
        rw [hrest]
        rfl

/-- `generate_doc` raises the `DependencyNotReady` 400 and performs no
store write whenever the document and its dependency documents exist and
some dependency is not `COMPLETED`. -/
theorem generate_doc_dependency_not_ready (O : GenOracles)
    (store : DocStore) (doc_id : String) (dependencies : List String)
    (doc : FirestoreDoc)
    (hdoc : get_documentation store doc_id = some doc)
    (hall : ∀ d ∈ dependencies, ∃ dd, get_documentation store d = some dd)
    (hbad : ∃ d ∈ dependencies, ∃ dd,
      get_documentation store d = some dd ∧
        dd.status ≠ some StatusEnum.COMPLETED) :
    generate_doc O store doc_id dependencies =
      (store, [], .error dependenciesNotCompleted) := by
  have hloop : validateDepsLoop (dependencies.map (get_documentation store)) =
      .error dependenciesNotCompleted := by
    apply validateDepsLoop_not_completed
    · intro x hx
      obtain ⟨d, hd, hde⟩ := List.mem_map.mp hx
      obtain ⟨dd, hdd⟩ := hall d hd
      rw [← hde, hdd]
      simp
    · obtain ⟨d, hd, dd, hdd, hst⟩ := hbad
      exact ⟨get_documentation store d, List.mem_map.mpr ⟨d, hd, rfl⟩,
        dd, hdd, hst⟩
  have hne : dependencies.map (get_documentation store) ≠ [] := by
    obtain ⟨d, hd, _⟩ := hbad
    exact fun h =>
      absurd (List.mem_map.mpr ⟨d, hd, rfl⟩) (h ▸ List.not_mem_nil _)
  have hv : validate_dependencies (get_documentation store doc_id)
      (dependencies.map (get_documentation store)) =
      .error dependenciesNotCompleted := by
    unfold validate_dependencies
    rw [hdoc]
    dsimp only
    rw [if_neg (fun hc => hne hc.2), hloop]
    rfl
  unfold generate_doc
  rw [hv]

/-- C1: a directory document is generated only after all of its children
are `COMPLETED`.  Part one: on a document whose dependency documents all
exist but some dependency's status is not `COMPLETED` (in particular on a
directory), `generate_doc` raises `HTTPException(400, "Dependencies are
not completed yet.")` — the `DependencyNotReady` failure — and writes
nothing.  Part two: for every dependency map with unique child keys whose
truthy parents are themselves nodes, every round scheduled by
`generate_repo_docs_background_task` contains only nodes all of whose
children were scheduled in strictly earlier rounds (the in-degree of a
scheduled node has reached `0`), so a directory is only scheduled after
all of its children. -/
theorem directory_docs_topological_safety :
    (∀ (O : GenOracles) (store : DocStore) (doc_id : String)
        (dependencies : List String) (doc : FirestoreDoc),
      get_documentation store doc_id = some doc →
      doc.type = some FirestoreDocType.DIRECTORY →
      (∀ d ∈ dependencies, ∃ dd, get_documentation store d = some dd) →
      (∃ d ∈ dependencies, ∃ dd,
        get_documentation store d = some dd ∧
          dd.status ≠ some StatusEnum.COMPLETED) →
      generate_doc O store doc_id dependencies =
        (store, [],
          .error (PyErr.httpExc 400 "Dependencies are not completed yet."))) ∧
    (∀ (O : GenOracles) (repo : FirestoreRepo) (st : RepoState),
      (repo.dependencies.map Prod.fst).Nodup →
      (∀ cp ∈ repo.dependencies, ∀ p, cp.2 = some p → p ≠ "" →
        p ∈ repo.dependencies.map Prod.fst) →
      GoodRounds repo.dependencies []
        (generate_repo_docs_background_task O repo st).2.1) := by
  constructor
  · intro O store doc_id dependencies doc hdoc _hdir hall hbad
    exact generate_doc_dependency_not_ready O store doc_id dependencies doc
      hdoc hall hbad
  · intro O repo st hkeys hparents
    unfold generate_repo_docs_background_task
    cases hv : validate_repo repo with
    | error e => exact trivial
    | ok u =>
      cases hr : repo.root_doc with
      | none => exact trivial
      | some root =>
        exact run_rounds_goodRounds O repo.dependencies root hkeys hparents
          (repo.dependencies.length + 1) (indegreeInit repo.dependencies) st
          [] (schedInv_init repo.dependencies hkeys hparents)

/-- A two-document store: a directory `dir` and a file `f` still
`IN_PROGRESS`. -/
def c1Store : DocStore := fun k =>
  if k = "dir" then
    some ({ type := some .DIRECTORY,
            status := some .NOT_STARTED } : FirestoreDoc)
  else if k = "f" then
    some ({ type := some .FILE,
            status := some .IN_PROGRESS } : FirestoreDoc)
  else none

/-- Oracles that always succeed. -/
def c1Oracles : GenOracles :=
  ⟨fun _ => .ok {}, fun _ _ => .ok {}⟩

/-- A two-node repository: file `f` whose parent is the root directory
`r`. -/
def c1Repo : FirestoreRepo :=
  { id := some "repo",
    dependencies := [("f", some "r"), ("r", none)],
    root_doc := some "r",
    status := some StatusEnum.NOT_STARTED }

/-- The scheduler state for the example run. -/
def c1State : RepoState := ⟨c1Store, some StatusEnum.IN_PROGRESS⟩

/-- Witness for C1: on the concrete store, generating the directory `dir`
whose dependency `f` is `IN_PROGRESS` raises the 400 with no write, and
the concrete repository run's schedule is topologically good. -/
theorem directory_docs_topological_safety_witness :
    generate_doc c1Oracles c1Store "dir" ["f"] =
      (c1Store, [],
        .error (PyErr.httpExc 400 "Dependencies are not completed yet.")) ∧
    GoodRounds c1Repo.dependencies []
      (generate_repo_docs_background_task c1Oracles c1Repo c1State).2.1 := by
  constructor
  · exact directory_docs_topological_safety.1 c1Oracles c1Store "dir" ["f"]
      ({ id := some "dir", type := some .DIRECTORY,
         status := some .NOT_STARTED } : FirestoreDoc)
      (by decide) (by decide)
      (fun d hd => by
        have hdf : d = "f" := by simpa using hd
        subst hdf
        exact ⟨({ id := some "f", type := some .FILE,
                  status := some .IN_PROGRESS } : FirestoreDoc), by decide⟩)
      ⟨"f", by simp,
        ({ id := some "f", type := some .FILE,
           status := some .IN_PROGRESS } : FirestoreDoc),
        by decide, by decide⟩
  · exact directory_docs_topological_safety.2 c1Oracles c1Repo c1State
      (by decide)
      (fun cp hcp p hp hpne => by
        rcases List.mem_cons.mp hcp with h | h
        · subst h
          have hp2 : some "r" = some p := hp
          have hpr : p = "r" := (Option.some.inj hp2).symm
          subst hpr
          decide
        · rcases List.mem_cons.mp h with h2 | h2
          · subst h2
            exact Option.noConfusion (show (none : Option String) = some p from hp)
          · exact absurd h2 (List.not_mem_nil cp))

end RocketDocs
